import Mathlib

/-!
Verification development for the parallel filtering and smoothing algorithms of
the dynamax repository, shallowly embedded over exact arithmetic:

* hmm/parallel_inference.py — discrete HMM filtering via an associative scan on
  message elements, plus the gradient-based smoother;
* linear_gaussian_ssm/parallel_inference.py — linear-Gaussian filtering and
  smoothing via associative scans.

Machine floating point is modelled by exact field arithmetic (ℝ for the HMM
part, which uses exp and log; an arbitrary field for the linear-Gaussian part,
instantiated at ℚ in concrete witnesses).  lax.associative_scan is modelled by
its contract (spec section 4.1): an inclusive prefix combine, forward or
reverse.  Cholesky-based solves are modelled by exact linear solves.
-/

open Finset Matrix

noncomputable section

/-! ### Generic associative scan engine -/

/-- Inclusive forward prefix scan: result at t is f 0 ⊕ f 1 ⊕ ... ⊕ f t.
This is the contract of lax.associative_scan (spec section 4.1). -/
def fwdScan {M : Type*} (op : M → M → M) (f : ℕ → M) : ℕ → M
  | 0 => f 0
  | n + 1 => op (fwdScan op f n) (f (n + 1))

/-- Helper for the reverse scan: k combine steps starting from index last and
walking down, so the value is f last ⊕ f (last-1) ⊕ ... ⊕ f (last-k). -/
def revScanAux {M : Type*} (op : M → M → M) (f : ℕ → M) (last : ℕ) : ℕ → M
  | 0 => f last
  | k + 1 => op (revScanAux op f last k) (f (last - (k + 1)))

/-- Reverse inclusive scan over indices 0..last: the result at t is
f last ⊕ f (last-1) ⊕ ... ⊕ f t.  This is the contract of
lax.associative_scan with reverse=True (reverse the input, scan forward,
reverse the output). -/
def revScan {M : Type*} (op : M → M → M) (f : ℕ → M) (last t : ℕ) : M :=
  revScanAux op f last (last - t)

/-! ### HMM message algebra (hmm/parallel_inference.py) -/

/-- Maximum entry of a vector (the jnp max reduction used for stabilisation). -/
def vecMax {K : ℕ} [NeZero K] (v : Fin K → ℝ) : ℝ :=
  Finset.univ.sup' ⟨⟨0, Nat.pos_of_neZero K⟩, Finset.mem_univ _⟩ v

/-- The conditioning primitive _condition_on applied to a single probability
vector: subtract the max of ll, reweight, normalise; return the normalised
vector and the log-normaliser. -/
def condVec {K : ℕ} [NeZero K] (a ll : Fin K → ℝ) : (Fin K → ℝ) × ℝ :=
  let m := vecMax ll
  let ac := fun j => a j * Real.exp (ll j - m)
  let norm := ∑ j, ac j
  (fun j => ac j / norm, Real.log norm + m)

/-- The conditioning primitive _condition_on applied rowwise to a matrix
(the ll vector is shared by all rows, as in the source). -/
def condMat {K : ℕ} [NeZero K] (A : Matrix (Fin K) (Fin K) ℝ) (ll : Fin K → ℝ) :
    Matrix (Fin K) (Fin K) ℝ × (Fin K → ℝ) :=
  let m := vecMax ll
  let ac : Matrix (Fin K) (Fin K) ℝ := fun i j => A i j * Real.exp (ll j - m)
  let norm := fun i => ∑ j, ac i j
  (fun i j => ac i j / norm i, fun i => Real.log (norm i) + m)

/-- HMM message element: matrix A and log-weight vector log_b. -/
@[ext]
structure HMMMessage (K : ℕ) where
  A : Matrix (Fin K) (Fin K) ℝ
  log_b : Fin K → ℝ

/-- The combine operator marginalize of hmm_filter: re-condition A on the
incoming log weights, matrix-multiply, and accumulate log-normalisers. -/
def marginalize {K : ℕ} [NeZero K] (m1 m2 : HMMMessage K) : HMMMessage K :=
  ⟨(condMat m1.A m2.log_b).1 * m2.A,
   fun i => m1.log_b i + (condMat m1.A m2.log_b).2 i⟩

/-- Initial messages of hmm_filter: at t = 0, condition the initial
distribution on the first log-likelihood and broadcast the row to a K×K
matrix (and the log-normaliser to a constant vector); for t > 0, condition
the transition matrix on the t-th log-likelihood. -/
def hmmMessage {K : ℕ} [NeZero K] (pi0 : Fin K → ℝ)
    (Tm : Matrix (Fin K) (Fin K) ℝ) (lls : ℕ → Fin K → ℝ) : ℕ → HMMMessage K :=
  fun t =>
    if t = 0 then
      ⟨fun _ j => (condVec pi0 (lls 0)).1 j, fun _ => (condVec pi0 (lls 0)).2⟩
    else
      ⟨(condMat Tm (lls t)).1, (condMat Tm (lls t)).2⟩

/-- The scanned messages of hmm_filter (lax.associative_scan of marginalize). -/
def hmmScan {K : ℕ} [NeZero K] (pi0 : Fin K → ℝ)
    (Tm : Matrix (Fin K) (Fin K) ℝ) (lls : ℕ → Fin K → ℝ) : ℕ → HMMMessage K :=
  fwdScan marginalize (hmmMessage pi0 Tm lls)

/-- Modelled from the spec: the HMMPosterior aggregate (dynamax.hmm.inference,
imported by the source but not under src/); fields per spec section 3, with
Option for the fields a call may leave unset. -/
structure HMMPosteriorE (K : ℕ) where
  marginal_loglik : ℝ
  filtered_probs : ℕ → Fin K → ℝ
  predicted_probs : ℕ → Fin K → ℝ
  initial_probs : Option (Fin K → ℝ)
  smoothed_probs : Option (ℕ → Fin K → ℝ)
  trans_probs : Option (Matrix (Fin K) (Fin K) ℝ)

/-- The parallel hmm_filter for a sequence of length T (T ≥ 1): scan the
messages, then read off the marginal log-likelihood (first entry of the last
scanned log_b), the filtered probabilities (first row of each scanned A), and
the predicted probabilities (the initial distribution at t = 0, and the
previous filtered row times the transition matrix afterwards). -/
def hmm_filter {K : ℕ} [NeZero K] (initial_probs : Fin K → ℝ)
    (transition_matrix : Matrix (Fin K) (Fin K) ℝ) (lls : ℕ → Fin K → ℝ)
    (T : ℕ) : HMMPosteriorE K :=
  let scanned := hmmScan initial_probs transition_matrix lls
  let filtered : ℕ → Fin K → ℝ := fun t => (scanned t).A 0
  ⟨(scanned (T - 1)).log_b 0,
   filtered,
   fun t => if t = 0 then initial_probs
            else Matrix.vecMul (filtered (t - 1)) transition_matrix,
   none, none, none⟩

/-! ### Sequential forward-algorithm reference (spec P2)

The classical sequential forward algorithm the spec compares against:
keep a normalised forward distribution, and at each step reweight the
one-step prediction by the likelihood and renormalise, recording the
normaliser. -/

/-- One pass of the classical forward algorithm: the pair at time t is the
normalised filtered distribution and the step normaliser c_t. -/
def seqForward {K : ℕ} [NeZero K] (pi0 : Fin K → ℝ)
    (Tm : Matrix (Fin K) (Fin K) ℝ) (lls : ℕ → Fin K → ℝ) :
    ℕ → (Fin K → ℝ) × ℝ
  | 0 =>
    let u := fun j => pi0 j * Real.exp (lls 0 j)
    (fun j => u j / ∑ k, u k, ∑ k, u k)
  | t + 1 =>
    let a := (seqForward pi0 Tm lls t).1
    let u := fun j => Matrix.vecMul a Tm j * Real.exp (lls (t + 1) j)
    (fun j => u j / ∑ k, u k, ∑ k, u k)

/-- Marginal log-likelihood of the sequential forward algorithm: the sum of
the logs of the step normalisers. -/
def seqLoglik {K : ℕ} [NeZero K] (pi0 : Fin K → ℝ)
    (Tm : Matrix (Fin K) (Fin K) ℝ) (lls : ℕ → Fin K → ℝ) (T : ℕ) : ℝ :=
  ∑ t ∈ Finset.range T, Real.log (seqForward pi0 Tm lls t).2

/-! ### Gradient-based HMM smoother (hmm_smoother)

The source computes value_and_grad of a log-normalizer function with
argnums = (1, 2), i.e. the reverse-mode gradient with respect to the log
transition matrix and the log-likelihood tensor.  Reverse-mode automatic
differentiation computes the mathematical gradient, so it is embedded as
entrywise partial derivatives (Mathlib deriv). -/

/-- The pure function log_normalizer inside hmm_smoother: exponentiate both
log-parameter tensors and run the parallel filter, returning the marginal
log-likelihood. -/
def logNormalizer {K : ℕ} [NeZero K] (log_initial : Fin K → ℝ)
    (log_trans : Matrix (Fin K) (Fin K) ℝ) (lls : ℕ → Fin K → ℝ) (T : ℕ) : ℝ :=
  (hmm_filter (fun i => Real.exp (log_initial i))
    (fun i j => Real.exp (log_trans i j)) lls T).marginal_loglik

/-- Replace one entry of a K×K matrix. -/
def updMat {K : ℕ} (M : Matrix (Fin K) (Fin K) ℝ) (i j : Fin K) (s : ℝ) :
    Matrix (Fin K) (Fin K) ℝ :=
  fun a b => if a = i ∧ b = j then s else M a b

/-- Replace one entry of a vector. -/
def updVec {K : ℕ} (v : Fin K → ℝ) (i : Fin K) (s : ℝ) : Fin K → ℝ :=
  fun a => if a = i then s else v a

/-- Replace one entry of a time-indexed family of vectors. -/
def updSeq {K : ℕ} (lls : ℕ → Fin K → ℝ) (t : ℕ) (k : Fin K) (s : ℝ) :
    ℕ → Fin K → ℝ :=
  fun u j => if u = t ∧ j = k then s else lls u j

/-- hmm_smoother's trans_probs: the (i,j) component of the reverse-mode
gradient of log_normalizer with respect to the log transition matrix (entry 1
of argnums), evaluated at the log-transformed parameters. -/
def hmmSmootherTransProbs {K : ℕ} [NeZero K] (pi0 : Fin K → ℝ)
    (Tm : Matrix (Fin K) (Fin K) ℝ) (lls : ℕ → Fin K → ℝ) (T : ℕ)
    (i j : Fin K) : ℝ :=
  deriv (fun s => logNormalizer (fun a => Real.log (pi0 a))
    (updMat (fun a b => Real.log (Tm a b)) i j s) lls T) (Real.log (Tm i j))

/-- hmm_smoother's smoothed_probs: the (t,k) component of the reverse-mode
gradient of log_normalizer with respect to the log-likelihood tensor (entry 2
of argnums), evaluated at the log-transformed parameters. -/
def hmmSmootherSmoothedProbs {K : ℕ} [NeZero K] (pi0 : Fin K → ℝ)
    (Tm : Matrix (Fin K) (Fin K) ℝ) (lls : ℕ → Fin K → ℝ) (T : ℕ)
    (t : ℕ) (k : Fin K) : ℝ :=
  deriv (fun s => logNormalizer (fun a => Real.log (pi0 a))
    (fun a b => Real.log (Tm a b)) (updSeq lls t k s) T) (lls t k)

/-- Following the claim's words (claim C7): trans_probs as the gradient of the
marginal log-likelihood with respect to the log initial distribution. -/
def claimedTransProbsSpec {K : ℕ} [NeZero K] (pi0 : Fin K → ℝ)
    (Tm : Matrix (Fin K) (Fin K) ℝ) (lls : ℕ → Fin K → ℝ) (T : ℕ)
    (i : Fin K) : ℝ :=
  deriv (fun s => logNormalizer (updVec (fun a => Real.log (pi0 a)) i s)
    (fun a b => Real.log (Tm a b)) lls T) (Real.log (pi0 i))

/-- Following the claim's words (claim C7): smoothed_probs as the gradient of
the marginal log-likelihood with respect to the log transition matrix. -/
def claimedSmoothedProbsSpec {K : ℕ} [NeZero K] (pi0 : Fin K → ℝ)
    (Tm : Matrix (Fin K) (Fin K) ℝ) (lls : ℕ → Fin K → ℝ) (T : ℕ)
    (i j : Fin K) : ℝ :=
  deriv (fun s => logNormalizer (fun a => Real.log (pi0 a))
    (updMat (fun a b => Real.log (Tm a b)) i j s) lls T) (Real.log (Tm i j))

/-- The parallel hmm_smoother: value_and_grad of log_normalizer at the
log-transformed parameters.  The auxiliary output is the filter posterior
computed on the exponentiated log-parameters; the gradient with respect to
the log transition matrix is aliased to trans_probs and the gradient with
respect to the log-likelihood tensor to smoothed_probs, whose row 0 is also
returned as initial_probs. -/
def hmm_smoother {K : ℕ} [NeZero K] (pi0 : Fin K → ℝ)
    (Tm : Matrix (Fin K) (Fin K) ℝ) (lls : ℕ → Fin K → ℝ) (T : ℕ) :
    HMMPosteriorE K :=
  let fwd := hmm_filter (fun i => Real.exp (Real.log (pi0 i)))
    (fun i j => Real.exp (Real.log (Tm i j))) lls T
  ⟨fwd.marginal_loglik, fwd.filtered_probs, fwd.predicted_probs,
   some (fun k => hmmSmootherSmoothedProbs pi0 Tm lls T 0 k),
   some (fun t k => hmmSmootherSmoothedProbs pi0 Tm lls T t k),
   some (fun i j => hmmSmootherTransProbs pi0 Tm lls T i j)⟩

/-! ### Linear-Gaussian SSM (linear_gaussian_ssm/parallel_inference.py)

Embedded over an arbitrary field, instantiated at ℚ in concrete witnesses.
Positive-definite (Cholesky) solves are modelled by exact linear solves via
the adjugate; on invertible operands this is the unique solution. -/

/-- Explicit matrix inverse by determinant and adjugate: for an invertible
matrix this is the true inverse, which is what the Cholesky-based solves of
the source compute on their (positive definite) operands. -/
def cinv {n : ℕ} {F : Type*} [Field F] (B : Matrix (Fin n) (Fin n) F) :
    Matrix (Fin n) (Fin n) F :=
  (B.det)⁻¹ • B.adjugate

/-- Exact model of jsc.linalg.solve / cho_solve with a matrix right-hand
side: the solution Z of B Z = X. -/
def msolve {n k : ℕ} {F : Type*} [Field F] (B : Matrix (Fin n) (Fin n) F)
    (X : Matrix (Fin n) (Fin k) F) : Matrix (Fin n) (Fin k) F :=
  cinv B * X

/-- Exact model of the solves with a vector right-hand side. -/
def msolveVec {n : ℕ} {F : Type*} [Field F] (B : Matrix (Fin n) (Fin n) F)
    (v : Fin n → F) : Fin n → F :=
  (cinv B).mulVec v

/-- Model parameters of the linear-Gaussian SSM (state dim d, emission dim
em), with the field names of the source. -/
structure LGSSMParams (F : Type*) (d em : ℕ) where
  dynamics_matrix : Matrix (Fin d) (Fin d) F
  dynamics_covariance : Matrix (Fin d) (Fin d) F
  emission_matrix : Matrix (Fin em) (Fin d) F
  emission_covariance : Matrix (Fin em) (Fin em) F
  initial_mean : Fin d → F
  initial_covariance : Matrix (Fin d) (Fin d) F

/-- Filtering element (A, b, C, J, eta) of the LGSSM filtering algebra. -/
@[ext]
structure FilterElem (F : Type*) (d : ℕ) where
  A : Matrix (Fin d) (Fin d) F
  b : Fin d → F
  C : Matrix (Fin d) (Fin d) F
  J : Matrix (Fin d) (Fin d) F
  eta : Fin d → F

/-- The first filtering element (t = 0): Bayes-update of the initial
distribution against the first emission, plus the information pair. -/
def firstFilteringElem {F : Type*} [Field F] {d em : ℕ}
    (p : LGSSMParams F d em) (y : Fin em → F) : FilterElem F d :=
  let Fm := p.dynamics_matrix
  let H := p.emission_matrix
  let Q := p.dynamics_covariance
  let R := p.emission_covariance
  let S := H * Q * Hᵀ + R
  let m1 := p.initial_mean
  let P1 := p.initial_covariance
  let S1 := H * P1 * Hᵀ + R
  let K1 := (msolve S1 (H * P1))ᵀ
  ⟨0,
   m1 + K1.mulVec (y - H.mulVec m1),
   P1 - K1 * S1 * K1ᵀ,
   Fmᵀ * Hᵀ * msolve S (H * Fm),
   Fmᵀ.mulVec (Hᵀ.mulVec (msolveVec S y))⟩

/-- A generic filtering element (t > 0). -/
def genericFilteringElem {F : Type*} [Field F] {d em : ℕ}
    (p : LGSSMParams F d em) (y : Fin em → F) : FilterElem F d :=
  let Fm := p.dynamics_matrix
  let H := p.emission_matrix
  let Q := p.dynamics_covariance
  let R := p.emission_covariance
  let S := H * Q * Hᵀ + R
  let Kg := (msolve S (H * Q))ᵀ
  ⟨Fm - Kg * H * Fm,
   Kg.mulVec y,
   Q - Kg * H * Q,
   Fmᵀ * Hᵀ * msolve S (H * Fm),
   Fmᵀ.mulVec (Hᵀ.mulVec (msolveVec S y))⟩

/-- make_associative_filtering_elements: the first element at t = 0 followed
by the generic elements. -/
def filteringElems {F : Type*} [Field F] {d em : ℕ}
    (p : LGSSMParams F d em) (ys : ℕ → Fin em → F) : ℕ → FilterElem F d :=
  fun t => if t = 0 then firstFilteringElem p (ys 0)
           else genericFilteringElem p (ys t)

/-- The filtering combine operator of lgssm_filter: both solves are taken
against the transposed coefficient matrices, then transposed back, exactly as
in the source (solve(I_C1J2.T, A2.T).T and solve(I_J2C1.T, A1).T). -/
def filtering_operator {F : Type*} [Field F] {d : ℕ}
    (e1 e2 : FilterElem F d) : FilterElem F d :=
  let Phi := (msolve (1 + e1.C * e2.J)ᵀ e2.Aᵀ)ᵀ
  let Psi := (msolve (1 + e2.J * e1.C)ᵀ e1.A)ᵀ
  ⟨Phi * e1.A,
   Phi.mulVec (e1.b + e1.C.mulVec e2.eta) + e2.b,
   Phi * e1.C * e2.Aᵀ + e2.C,
   Psi * e2.J * e1.A + e1.J,
   Psi.mulVec (e2.eta - e2.J.mulVec e1.b) + e1.eta⟩

/-- Following the claim's words (claim C2): Phi as the transpose of the
solution of (I + C1 J2) itself against A2ᵀ, and Psi as the transpose of the
solution of (I + J2 C1) itself against A1; the five outputs assembled by the
same formulas. -/
def filteringOperatorClaimed {F : Type*} [Field F] {d : ℕ}
    (e1 e2 : FilterElem F d) : FilterElem F d :=
  let Phi := (msolve (1 + e1.C * e2.J) e2.Aᵀ)ᵀ
  let Psi := (msolve (1 + e2.J * e1.C) e1.A)ᵀ
  ⟨Phi * e1.A,
   Phi.mulVec (e1.b + e1.C.mulVec e2.eta) + e2.b,
   Phi * e1.C * e2.Aᵀ + e2.C,
   Psi * e2.J * e1.A + e1.J,
   Psi.mulVec (e2.eta - e2.J.mulVec e1.b) + e1.eta⟩

/-- Modelled from the spec: the GSSMPosterior container (dynamax.containers,
imported by the source but not under src/); fields per spec section 3, with
Option for the fields a call may leave unset — in particular lgssm_filter and
lgssm_smoother set no marginal log-likelihood. -/
structure GSSMPosteriorE (F : Type*) (d : ℕ) where
  marginal_loglik : Option F
  filtered_means : ℕ → Fin d → F
  filtered_covariances : ℕ → Matrix (Fin d) (Fin d) F
  smoothed_means : Option (ℕ → Fin d → F)
  smoothed_covariances : Option (ℕ → Matrix (Fin d) (Fin d) F)

/-- The scanned filtering elements of lgssm_filter. -/
def lgssmScan {F : Type*} [Field F] {d em : ℕ} (p : LGSSMParams F d em)
    (ys : ℕ → Fin em → F) : ℕ → FilterElem F d :=
  fwdScan filtering_operator (filteringElems p ys)

/-- The parallel lgssm_filter: scan the elements and read off the b and C
components; no marginal log-likelihood is produced. -/
def lgssm_filter {F : Type*} [Field F] {d em : ℕ} (p : LGSSMParams F d em)
    (ys : ℕ → Fin em → F) : GSSMPosteriorE F d :=
  ⟨none, fun t => (lgssmScan p ys t).b, fun t => (lgssmScan p ys t).C,
   none, none⟩

/-- Smoothing element (E, g, L) of the LGSSM smoothing algebra. -/
@[ext]
structure SmoothElem (F : Type*) (d : ℕ) where
  E : Matrix (Fin d) (Fin d) F
  g : Fin d → F
  L : Matrix (Fin d) (Fin d) F

/-- A generic smoothing element (t < T-1), built from the filtered mean and
covariance at t. -/
def genericSmoothingElem {F : Type*} [Field F] {d em : ℕ}
    (p : LGSSMParams F d em) (m : Fin d → F)
    (P : Matrix (Fin d) (Fin d) F) : SmoothElem F d :=
  let Fm := p.dynamics_matrix
  let Q := p.dynamics_covariance
  let Pp := Fm * P * Fmᵀ + Q
  let E := (msolve Pp (Fm * P))ᵀ
  ⟨E, m - E.mulVec (Fm.mulVec m), P - E * Pp * Eᵀ⟩

/-- The smoothing combine operator of lgssm_smoother. -/
def smoothing_operator {F : Type*} [Field F] {d : ℕ}
    (e1 e2 : SmoothElem F d) : SmoothElem F d :=
  ⟨e2.E * e1.E, e2.E.mulVec e1.g + e2.g, e2.E * e1.L * e2.Eᵀ + e2.L⟩

/-- make_associative_smoothing_elements for a sequence of length T: generic
elements for t < T-1, and the identity-like last element
(E = 0, g = filtered mean, L = filtered covariance) at index T-1. -/
def smoothingElems {F : Type*} [Field F] {d em : ℕ} (p : LGSSMParams F d em)
    (fm : ℕ → Fin d → F) (fC : ℕ → Matrix (Fin d) (Fin d) F) (T : ℕ) :
    ℕ → SmoothElem F d :=
  fun t => if t = T - 1 then ⟨0, fm (T - 1), fC (T - 1)⟩
           else genericSmoothingElem p (fm t) (fC t)

/-- The parallel lgssm_smoother: filter, build the smoothing elements (the
identity-like element included at index T-1), reverse-scan all of them, and
return the filtered and smoothed moments. -/
def lgssm_smoother {F : Type*} [Field F] {d em : ℕ} (p : LGSSMParams F d em)
    (ys : ℕ → Fin em → F) (T : ℕ) : GSSMPosteriorE F d :=
  let fp := lgssm_filter p ys
  let elems := smoothingElems p fp.filtered_means fp.filtered_covariances T
  let sm := fun t => revScan smoothing_operator elems (T - 1) t
  ⟨none, fp.filtered_means, fp.filtered_covariances,
   some (fun t => (sm t).g), some (fun t => (sm t).L)⟩

/-- Following the claim's words (claim C6): the reverse scan runs only over
the first T-1 generic elements (indices 0..T-2), and the last element is
appended afterward, untouched by the scan. -/
def lgssmSmootherClaimed {F : Type*} [Field F] {d em : ℕ}
    (p : LGSSMParams F d em) (ys : ℕ → Fin em → F) (T : ℕ) :
    GSSMPosteriorE F d :=
  let fp := lgssm_filter p ys
  let elems := smoothingElems p fp.filtered_means fp.filtered_covariances T
  let sm := fun t => if t = T - 1 then elems (T - 1)
                     else revScan smoothing_operator elems (T - 2) t
  ⟨none, fp.filtered_means, fp.filtered_covariances,
   some (fun t => (sm t).g), some (fun t => (sm t).L)⟩

/-! ### Basic lemmas on the explicit inverse -/

theorem cinv_transpose {n : ℕ} {F : Type*} [Field F]
    (B : Matrix (Fin n) (Fin n) F) : (cinv Bᵀ)ᵀ = cinv B := by
  simp [cinv, Matrix.transpose_smul, Matrix.det_transpose,
    Matrix.adjugate_transpose]

theorem mul_cinv {n : ℕ} {F : Type*} [Field F]
    {B : Matrix (Fin n) (Fin n) F} (h : B.det ≠ 0) : B * cinv B = 1 := by
  rw [cinv, Matrix.mul_smul, Matrix.mul_adjugate, smul_smul,
    inv_mul_cancel₀ h, one_smul]

theorem cinv_mul {n : ℕ} {F : Type*} [Field F]
    {B : Matrix (Fin n) (Fin n) F} (h : B.det ≠ 0) : cinv B * B = 1 := by
  rw [cinv, Matrix.smul_mul, Matrix.adjugate_mul, smul_smul,
    inv_mul_cancel₀ h, one_smul]

theorem det_ne_zero_of_right_inv {n : ℕ} {F : Type*} [Field F]
    {B W : Matrix (Fin n) (Fin n) F} (h : B * W = 1) : B.det ≠ 0 := by
  intro hdet
  have h1 : B.det * W.det = 1 := by rw [← Matrix.det_mul, h, Matrix.det_one]
  rw [hdet, zero_mul] at h1
  exact zero_ne_one h1

theorem cinv_eq_of_mul_eq_one {n : ℕ} {F : Type*} [Field F]
    {B W : Matrix (Fin n) (Fin n) F} (h : B * W = 1) : cinv B = W := by
  have hdet := det_ne_zero_of_right_inv h
  calc cinv B = cinv B * (B * W) := by rw [h, Matrix.mul_one]
    _ = (cinv B * B) * W := by rw [Matrix.mul_assoc]
    _ = W := by rw [cinv_mul hdet, Matrix.one_mul]

theorem cinv_mul_of_right_inv {n : ℕ} {F : Type*} [Field F]
    {B W : Matrix (Fin n) (Fin n) F} (h : B * W = 1) : W * B = 1 := by
  rw [← cinv_eq_of_mul_eq_one h]
  exact cinv_mul (det_ne_zero_of_right_inv h)

/-- The filtering combine operator in closed form: the transposed solves of
the source evaluate to right-multiplication by the inverses of (1 + C1 J2)
and (1 + J2 C1). -/
theorem filtering_operator_eq {F : Type*} [Field F] {d : ℕ}
    (e1 e2 : FilterElem F d) :
    filtering_operator e1 e2 =
      ⟨e2.A * cinv (1 + e1.C * e2.J) * e1.A,
       (e2.A * cinv (1 + e1.C * e2.J)).mulVec (e1.b + e1.C.mulVec e2.eta)
         + e2.b,
       e2.A * cinv (1 + e1.C * e2.J) * e1.C * e2.Aᵀ + e2.C,
       (e1.Aᵀ * cinv (1 + e2.J * e1.C)) * e2.J * e1.A + e1.J,
       (e1.Aᵀ * cinv (1 + e2.J * e1.C)).mulVec (e2.eta - e2.J.mulVec e1.b)
         + e1.eta⟩ := by
  have hPhi : (msolve (1 + e1.C * e2.J)ᵀ e2.Aᵀ)ᵀ =
      e2.A * cinv (1 + e1.C * e2.J) := by
    rw [msolve, Matrix.transpose_mul, Matrix.transpose_transpose,
      cinv_transpose]
  have hPsi : (msolve (1 + e2.J * e1.C)ᵀ e1.A)ᵀ =
      e1.Aᵀ * cinv (1 + e2.J * e1.C) := by
    rw [msolve, Matrix.transpose_mul, cinv_transpose]
  rw [filtering_operator]
  rw [hPhi, hPsi]

/-! ### Claim C4 -/

/-- Claim C4: hmm_filter extracts its outputs from the scanned messages —
marginal_loglik is the first entry of the final scanned log_b, filtered_probs
t is the first row of the t-th scanned A, predicted_probs 0 is the initial
distribution, and predicted_probs t for t > 0 is the previous filtered row
multiplied by the transition matrix. -/
theorem C4_hmm_filter_extraction :
    ∀ (K : ℕ) [NeZero K] (pi0 : Fin K → ℝ) (Tm : Matrix (Fin K) (Fin K) ℝ)
      (lls : ℕ → Fin K → ℝ) (T : ℕ),
      (hmm_filter pi0 Tm lls T).marginal_loglik =
          (hmmScan pi0 Tm lls (T - 1)).log_b 0 ∧
      (∀ t, (hmm_filter pi0 Tm lls T).filtered_probs t =
          (hmmScan pi0 Tm lls t).A 0) ∧
      (hmm_filter pi0 Tm lls T).predicted_probs 0 = pi0 ∧
      (∀ t, 0 < t → (hmm_filter pi0 Tm lls T).predicted_probs t =
          Matrix.vecMul ((hmm_filter pi0 Tm lls T).filtered_probs (t - 1))
            Tm) := by
  intro K _ pi0 Tm lls T
  refine ⟨rfl, fun t => rfl, ?_, ?_⟩
  · simp [hmm_filter]
  · intro t ht
    simp [hmm_filter, Nat.pos_iff_ne_zero.mp ht]

/-- Witness for C4 at a concrete one-state input with t = 1. -/
theorem C4_hmm_filter_extraction_witness :
    (0 : ℕ) < 1 ∧
    (hmm_filter (fun _ : Fin 1 => (1 : ℝ)) 1 (fun _ _ => 0) 2).predicted_probs
        1 =
      Matrix.vecMul
        ((hmm_filter (fun _ : Fin 1 => (1 : ℝ)) 1 (fun _ _ => 0)
          2).filtered_probs 0) 1 :=
  ⟨by norm_num,
   (C4_hmm_filter_extraction 1 (fun _ => 1) 1 (fun _ _ => 0) 2).2.2.2 1
     (by norm_num)⟩

/-! ### Claim C8 -/

/-- Claim C8: the forward scan of lgssm_filter yields filtered_means t as the
b-component and filtered_covariances t as the C-component of the t-th scanned
element, and the returned posterior carries no marginal log-likelihood. -/
theorem C8_lgssm_filter_extraction :
    ∀ (F : Type) [Field F] (d em : ℕ) (p : LGSSMParams F d em)
      (ys : ℕ → Fin em → F) (t : ℕ),
      (lgssm_filter p ys).filtered_means t = (lgssmScan p ys t).b ∧
      (lgssm_filter p ys).filtered_covariances t = (lgssmScan p ys t).C ∧
      (lgssm_filter p ys).marginal_loglik = none := by
  intro F _ d em p ys t
  exact ⟨rfl, rfl, rfl⟩

/-! ### Claim C2 -/

/-- Claim C2 counterexample: the operator of the source solves the transposed
systems (solve (I + C1 J2)ᵀ against A2ᵀ, then transpose), which differs from
the claim's Phi = transpose of the solution of (I + C1 J2) itself against
A2ᵀ; at symmetric C1 = diag(1,2) and J2 = all-ones the two A-outputs differ
in entry (0,1). -/
theorem C2_filtering_operator_counterexample :
    (filtering_operator
        (⟨1, 0, !![(1 : ℚ), 0; 0, 2], 0, 0⟩ : FilterElem ℚ 2)
        (⟨1, 0, 0, !![(1 : ℚ), 1; 1, 1], 0⟩ : FilterElem ℚ 2)).A 0 1 ≠
      (filteringOperatorClaimed
        (⟨1, 0, !![(1 : ℚ), 0; 0, 2], 0, 0⟩ : FilterElem ℚ 2)
        (⟨1, 0, 0, !![(1 : ℚ), 1; 1, 1], 0⟩ : FilterElem ℚ 2)).A 0 1 := by
  have h1 : ((1 : Matrix (Fin 2) (Fin 2) ℚ) +
      !![(1 : ℚ), 0; 0, 2] * !![(1 : ℚ), 1; 1, 1]) = !![(2 : ℚ), 1; 2, 3] := by
    ext i j
    fin_cases i <;> fin_cases j <;>
      simp [Matrix.mul_apply, Fin.sum_univ_two, Matrix.one_apply] <;> norm_num
  have hcinv : cinv !![(2 : ℚ), 1; 2, 3] =
      !![(3 : ℚ) / 4, -(1 / 4); -(1 / 2), 1 / 2] := by
    rw [cinv, Matrix.det_fin_two, Matrix.adjugate_fin_two]
    ext i j
    fin_cases i <;> fin_cases j <;> simp [Matrix.smul_apply] <;> norm_num
  have hcode : (filtering_operator
      (⟨1, 0, !![(1 : ℚ), 0; 0, 2], 0, 0⟩ : FilterElem ℚ 2)
      (⟨1, 0, 0, !![(1 : ℚ), 1; 1, 1], 0⟩ : FilterElem ℚ 2)).A 0 1 =
      -(1 / 4 : ℚ) := by
    rw [filtering_operator_eq]
    show ((1 : Matrix (Fin 2) (Fin 2) ℚ) *
      cinv ((1 : Matrix (Fin 2) (Fin 2) ℚ) +
        !![(1 : ℚ), 0; 0, 2] * !![(1 : ℚ), 1; 1, 1]) *
      (1 : Matrix (Fin 2) (Fin 2) ℚ)) 0 1 = -(1 / 4 : ℚ)
    rw [Matrix.one_mul, Matrix.mul_one, h1, hcinv]
    simp
  have hclaim : (filteringOperatorClaimed
      (⟨1, 0, !![(1 : ℚ), 0; 0, 2], 0, 0⟩ : FilterElem ℚ 2)
      (⟨1, 0, 0, !![(1 : ℚ), 1; 1, 1], 0⟩ : FilterElem ℚ 2)).A 0 1 =
      -(1 / 2 : ℚ) := by
    show (((msolve ((1 : Matrix (Fin 2) (Fin 2) ℚ) +
        !![(1 : ℚ), 0; 0, 2] * !![(1 : ℚ), 1; 1, 1])
        ((1 : Matrix (Fin 2) (Fin 2) ℚ))ᵀ)ᵀ) *
      (1 : Matrix (Fin 2) (Fin 2) ℚ)) 0 1 = -(1 / 2 : ℚ)
    rw [Matrix.transpose_one, msolve, Matrix.mul_one, Matrix.mul_one, h1,
      hcinv]
    simp
  rw [hcode, hclaim]
  norm_num

/-- Claim C2 amended: the filtering combine operator computes Phi as the
transpose of the solution of (I + C1 J2)ᵀ against A2ᵀ — equivalently
A2 (I + C1 J2)⁻¹ — and Psi as the transpose of the solution of (I + J2 C1)ᵀ
against A1 — equivalently A1ᵀ (I + J2 C1)⁻¹ — and returns A = Phi A1,
b = Phi (b1 + C1 eta2) + b2, C = Phi C1 A2ᵀ + C2,
eta = Psi (eta2 − J2 b1) + eta1, J = Psi J2 A1 + J1.  The inverses are
characterised by right-inverse witnesses W and V. -/
theorem C2_filtering_operator_formulas :
    ∀ (F : Type) [Field F] (d : ℕ) (e1 e2 : FilterElem F d)
      (W V : Matrix (Fin d) (Fin d) F),
      (1 + e1.C * e2.J) * W = 1 → (1 + e2.J * e1.C) * V = 1 →
      (filtering_operator e1 e2).A = e2.A * W * e1.A ∧
      (filtering_operator e1 e2).b =
        (e2.A * W).mulVec (e1.b + e1.C.mulVec e2.eta) + e2.b ∧
      (filtering_operator e1 e2).C = e2.A * W * e1.C * e2.Aᵀ + e2.C ∧
      (filtering_operator e1 e2).eta =
        (e1.Aᵀ * V).mulVec (e2.eta - e2.J.mulVec e1.b) + e1.eta ∧
      (filtering_operator e1 e2).J = (e1.Aᵀ * V) * e2.J * e1.A + e1.J := by
  intro F _ d e1 e2 W V hW hV
  rw [filtering_operator_eq, cinv_eq_of_mul_eq_one hW, cinv_eq_of_mul_eq_one hV]
  exact ⟨rfl, rfl, rfl, rfl, rfl⟩

/-- Witness for the amended C2 at concrete scalar elements, where
1 + C1 J2 = 2 and W = V = 1/2. -/
theorem C2_filtering_operator_formulas_witness :
    ((1 : Matrix (Fin 1) (Fin 1) ℚ) +
        (⟨1, 0, 1, 0, 0⟩ : FilterElem ℚ 1).C *
          (⟨1, 0, 0, 1, 0⟩ : FilterElem ℚ 1).J) *
        Matrix.of ![![(1 : ℚ) / 2]] = 1 ∧
    (filtering_operator (⟨1, 0, 1, 0, 0⟩ : FilterElem ℚ 1)
        (⟨1, 0, 0, 1, 0⟩ : FilterElem ℚ 1)).A =
      (⟨1, 0, 0, 1, 0⟩ : FilterElem ℚ 1).A * Matrix.of ![![(1 : ℚ) / 2]] *
        (⟨1, 0, 1, 0, 0⟩ : FilterElem ℚ 1).A := by
  have hW : ((1 : Matrix (Fin 1) (Fin 1) ℚ) +
      (⟨1, 0, 1, 0, 0⟩ : FilterElem ℚ 1).C *
        (⟨1, 0, 0, 1, 0⟩ : FilterElem ℚ 1).J) *
      Matrix.of ![![(1 : ℚ) / 2]] = 1 := by
    ext i j
    fin_cases i <;> fin_cases j <;>
      simp [Matrix.mul_apply, Matrix.one_apply]
    norm_num
  have hV : ((1 : Matrix (Fin 1) (Fin 1) ℚ) +
      (⟨1, 0, 0, 1, 0⟩ : FilterElem ℚ 1).J *
        (⟨1, 0, 1, 0, 0⟩ : FilterElem ℚ 1).C) *
      Matrix.of ![![(1 : ℚ) / 2]] = 1 := by
    ext i j
    fin_cases i <;> fin_cases j <;>
      simp [Matrix.mul_apply, Matrix.one_apply]
    norm_num
  exact ⟨hW,
    (C2_filtering_operator_formulas ℚ 1 ⟨1, 0, 1, 0, 0⟩ ⟨1, 0, 0, 1, 0⟩
      (Matrix.of ![![(1 : ℚ) / 2]]) (Matrix.of ![![(1 : ℚ) / 2]]) hW hV).1⟩

/-! ### Claim C6 -/

/-- Claim C6 counterexample: in the source the identity-like last element is
appended to the element array before the reverse scan and participates in
every combine; scanning only the first T-1 generic elements and appending the
last element afterward (the claim's procedure) yields different smoothed
means.  Concretely, for the scalar system F = 1, Q = 1, H = 1, R = 1,
m1 = 0, P1 = 1 with emissions y = (2, 2), the code gives
smoothed mean 6/5 at t = 0 while the claimed procedure gives 2/3. -/
theorem C6_smoother_scan_counterexample :
    (lgssm_smoother (⟨1, 1, 1, 1, 0, 1⟩ : LGSSMParams ℚ 1 1)
        (fun _ _ => (2 : ℚ)) 2).smoothed_means ≠
      (lgssmSmootherClaimed (⟨1, 1, 1, 1, 0, 1⟩ : LGSSMParams ℚ 1 1)
        (fun _ _ => (2 : ℚ)) 2).smoothed_means := by
  have hs0 : lgssmScan (⟨1, 1, 1, 1, 0, 1⟩ : LGSSMParams ℚ 1 1)
      (fun _ _ => (2 : ℚ)) 0 =
      firstFilteringElem (⟨1, 1, 1, 1, 0, 1⟩ : LGSSMParams ℚ 1 1)
        (fun _ => (2 : ℚ)) := rfl
  have hs1 : lgssmScan (⟨1, 1, 1, 1, 0, 1⟩ : LGSSMParams ℚ 1 1)
      (fun _ _ => (2 : ℚ)) 1 =
      filtering_operator
        (firstFilteringElem (⟨1, 1, 1, 1, 0, 1⟩ : LGSSMParams ℚ 1 1)
          (fun _ => (2 : ℚ)))
        (genericFilteringElem (⟨1, 1, 1, 1, 0, 1⟩ : LGSSMParams ℚ 1 1)
          (fun _ => (2 : ℚ))) := rfl
  have sb0 : (firstFilteringElem (⟨1, 1, 1, 1, 0, 1⟩ : LGSSMParams ℚ 1 1)
      (fun _ => (2 : ℚ))).b 0 = 1 := by
    simp [firstFilteringElem, msolve, msolveVec, cinv, Matrix.det_fin_one,
      Matrix.adjugate_fin_one, Matrix.mul_apply, Matrix.mulVec,
      Matrix.dotProduct, Fin.sum_univ_one, Matrix.one_apply,
      Matrix.smul_apply, Matrix.add_apply, Pi.add_apply, Pi.sub_apply]
    norm_num
  have sC0 : (firstFilteringElem (⟨1, 1, 1, 1, 0, 1⟩ : LGSSMParams ℚ 1 1)
      (fun _ => (2 : ℚ))).C 0 0 = 1 / 2 := by
    simp [firstFilteringElem, msolve, msolveVec, cinv, Matrix.det_fin_one,
      Matrix.adjugate_fin_one, Matrix.mul_apply, Matrix.mulVec,
      Matrix.dotProduct, Fin.sum_univ_one, Matrix.one_apply,
      Matrix.smul_apply, Matrix.add_apply, Matrix.sub_apply]
    norm_num
  have sA1 : (genericFilteringElem (⟨1, 1, 1, 1, 0, 1⟩ : LGSSMParams ℚ 1 1)
      (fun _ => (2 : ℚ))).A 0 0 = 1 / 2 := by
    simp [genericFilteringElem, msolve, msolveVec, cinv, Matrix.det_fin_one,
      Matrix.adjugate_fin_one, Matrix.mul_apply, Matrix.mulVec,
      Matrix.dotProduct, Fin.sum_univ_one, Matrix.one_apply,
      Matrix.smul_apply, Matrix.add_apply, Matrix.sub_apply]
    norm_num
  have sb1 : (genericFilteringElem (⟨1, 1, 1, 1, 0, 1⟩ : LGSSMParams ℚ 1 1)
      (fun _ => (2 : ℚ))).b 0 = 1 := by
    simp [genericFilteringElem, msolve, msolveVec, cinv, Matrix.det_fin_one,
      Matrix.adjugate_fin_one, Matrix.mul_apply, Matrix.mulVec,
      Matrix.dotProduct, Fin.sum_univ_one, Matrix.one_apply,
      Matrix.smul_apply, Matrix.add_apply]
    norm_num
  have sC1 : (genericFilteringElem (⟨1, 1, 1, 1, 0, 1⟩ : LGSSMParams ℚ 1 1)
      (fun _ => (2 : ℚ))).C 0 0 = 1 / 2 := by
    simp [genericFilteringElem, msolve, msolveVec, cinv, Matrix.det_fin_one,
      Matrix.adjugate_fin_one, Matrix.mul_apply, Matrix.mulVec,
      Matrix.dotProduct, Fin.sum_univ_one, Matrix.one_apply,
      Matrix.smul_apply, Matrix.add_apply, Matrix.sub_apply]
    norm_num
  have sJ1 : (genericFilteringElem (⟨1, 1, 1, 1, 0, 1⟩ : LGSSMParams ℚ 1 1)
      (fun _ => (2 : ℚ))).J 0 0 = 1 / 2 := by
    simp [genericFilteringElem, msolve, msolveVec, cinv, Matrix.det_fin_one,
      Matrix.adjugate_fin_one, Matrix.mul_apply, Matrix.mulVec,
      Matrix.dotProduct, Fin.sum_univ_one, Matrix.one_apply,
      Matrix.smul_apply, Matrix.add_apply]
    norm_num
  have seta1 : (genericFilteringElem (⟨1, 1, 1, 1, 0, 1⟩ : LGSSMParams ℚ 1 1)
      (fun _ => (2 : ℚ))).eta 0 = 1 := by
    simp [genericFilteringElem, msolve, msolveVec, cinv, Matrix.det_fin_one,
      Matrix.adjugate_fin_one, Matrix.mul_apply, Matrix.mulVec,
      Matrix.dotProduct, Fin.sum_univ_one, Matrix.one_apply,
      Matrix.smul_apply, Matrix.add_apply]
    norm_num
  have sfm1 : (lgssmScan (⟨1, 1, 1, 1, 0, 1⟩ : LGSSMParams ℚ 1 1)
      (fun _ _ => (2 : ℚ)) 1).b 0 = 8 / 5 := by
    rw [hs1, filtering_operator_eq]
    show ((genericFilteringElem (⟨1, 1, 1, 1, 0, 1⟩ : LGSSMParams ℚ 1 1)
        (fun _ => (2 : ℚ))).A *
      cinv (1 + (firstFilteringElem (⟨1, 1, 1, 1, 0, 1⟩ : LGSSMParams ℚ 1 1)
        (fun _ => (2 : ℚ))).C *
        (genericFilteringElem (⟨1, 1, 1, 1, 0, 1⟩ : LGSSMParams ℚ 1 1)
          (fun _ => (2 : ℚ))).J)).mulVec
        ((firstFilteringElem (⟨1, 1, 1, 1, 0, 1⟩ : LGSSMParams ℚ 1 1)
          (fun _ => (2 : ℚ))).b +
         (firstFilteringElem (⟨1, 1, 1, 1, 0, 1⟩ : LGSSMParams ℚ 1 1)
          (fun _ => (2 : ℚ))).C.mulVec
           ((genericFilteringElem (⟨1, 1, 1, 1, 0, 1⟩ : LGSSMParams ℚ 1 1)
             (fun _ => (2 : ℚ))).eta)) 0 +
      (genericFilteringElem (⟨1, 1, 1, 1, 0, 1⟩ : LGSSMParams ℚ 1 1)
        (fun _ => (2 : ℚ))).b 0 = 8 / 5
    simp only [Matrix.mulVec, Matrix.dotProduct, Fin.sum_univ_one,
      Matrix.mul_apply, Pi.add_apply, Matrix.add_apply, Matrix.one_apply_eq]
    rw [cinv]
    simp only [Matrix.det_fin_one, Matrix.adjugate_fin_one, Matrix.smul_apply,
      Matrix.one_apply_eq, Matrix.add_apply, Matrix.mul_apply,
      Fin.sum_univ_one, Matrix.one_apply_eq]
    rw [sb0, sC0, sA1, sb1, sJ1, seta1]
    norm_num
  have sfC1 : (lgssmScan (⟨1, 1, 1, 1, 0, 1⟩ : LGSSMParams ℚ 1 1)
      (fun _ _ => (2 : ℚ)) 1).C 0 0 = 3 / 5 := by
    rw [hs1, filtering_operator_eq]
    show ((genericFilteringElem (⟨1, 1, 1, 1, 0, 1⟩ : LGSSMParams ℚ 1 1)
        (fun _ => (2 : ℚ))).A *
      cinv ((1 : Matrix (Fin 1) (Fin 1) ℚ) +
        (firstFilteringElem (⟨1, 1, 1, 1, 0, 1⟩ : LGSSMParams ℚ 1 1)
        (fun _ => (2 : ℚ))).C *
        (genericFilteringElem (⟨1, 1, 1, 1, 0, 1⟩ : LGSSMParams ℚ 1 1)
          (fun _ => (2 : ℚ))).J) *
      (firstFilteringElem (⟨1, 1, 1, 1, 0, 1⟩ : LGSSMParams ℚ 1 1)
        (fun _ => (2 : ℚ))).C *
      ((genericFilteringElem (⟨1, 1, 1, 1, 0, 1⟩ : LGSSMParams ℚ 1 1)
        (fun _ => (2 : ℚ))).A)ᵀ +
      (genericFilteringElem (⟨1, 1, 1, 1, 0, 1⟩ : LGSSMParams ℚ 1 1)
        (fun _ => (2 : ℚ))).C) 0 0 = 3 / 5
    simp only [Matrix.add_apply, Matrix.mul_apply, Fin.sum_univ_one,
      Matrix.transpose_apply]
    rw [cinv]
    simp only [Matrix.det_fin_one, Matrix.adjugate_fin_one, Matrix.smul_apply,
      Matrix.one_apply_eq, Matrix.add_apply, Matrix.mul_apply,
      Fin.sum_univ_one]
    rw [sC0, sA1, sJ1, sC1]
    norm_num
  have hrev : revScan smoothing_operator
      (smoothingElems (⟨1, 1, 1, 1, 0, 1⟩ : LGSSMParams ℚ 1 1)
        (lgssm_filter (⟨1, 1, 1, 1, 0, 1⟩ : LGSSMParams ℚ 1 1)
          (fun _ _ => (2 : ℚ))).filtered_means
        (lgssm_filter (⟨1, 1, 1, 1, 0, 1⟩ : LGSSMParams ℚ 1 1)
          (fun _ _ => (2 : ℚ))).filtered_covariances 2) (2 - 1) 0 =
      smoothing_operator
        (smoothingElems (⟨1, 1, 1, 1, 0, 1⟩ : LGSSMParams ℚ 1 1)
          (lgssm_filter (⟨1, 1, 1, 1, 0, 1⟩ : LGSSMParams ℚ 1 1)
            (fun _ _ => (2 : ℚ))).filtered_means
          (lgssm_filter (⟨1, 1, 1, 1, 0, 1⟩ : LGSSMParams ℚ 1 1)
            (fun _ _ => (2 : ℚ))).filtered_covariances 2 1)
        (smoothingElems (⟨1, 1, 1, 1, 0, 1⟩ : LGSSMParams ℚ 1 1)
          (lgssm_filter (⟨1, 1, 1, 1, 0, 1⟩ : LGSSMParams ℚ 1 1)
            (fun _ _ => (2 : ℚ))).filtered_means
          (lgssm_filter (⟨1, 1, 1, 1, 0, 1⟩ : LGSSMParams ℚ 1 1)
            (fun _ _ => (2 : ℚ))).filtered_covariances 2 0) := rfl
  have hE0 : (genericSmoothingElem (⟨1, 1, 1, 1, 0, 1⟩ : LGSSMParams ℚ 1 1)
      ((lgssm_filter (⟨1, 1, 1, 1, 0, 1⟩ : LGSSMParams ℚ 1 1)
        (fun _ _ => (2 : ℚ))).filtered_means 0)
      ((lgssm_filter (⟨1, 1, 1, 1, 0, 1⟩ : LGSSMParams ℚ 1 1)
        (fun _ _ => (2 : ℚ))).filtered_covariances 0)).E 0 0 = 1 / 3 := by
    show ((msolve ((⟨1, 1, 1, 1, 0, 1⟩ : LGSSMParams ℚ 1 1).dynamics_matrix *
        (lgssmScan (⟨1, 1, 1, 1, 0, 1⟩ : LGSSMParams ℚ 1 1)
          (fun _ _ => (2 : ℚ)) 0).C *
        ((⟨1, 1, 1, 1, 0, 1⟩ : LGSSMParams ℚ 1 1).dynamics_matrix)ᵀ +
        (⟨1, 1, 1, 1, 0, 1⟩ : LGSSMParams ℚ 1 1).dynamics_covariance)
        ((⟨1, 1, 1, 1, 0, 1⟩ : LGSSMParams ℚ 1 1).dynamics_matrix *
        (lgssmScan (⟨1, 1, 1, 1, 0, 1⟩ : LGSSMParams ℚ 1 1)
          (fun _ _ => (2 : ℚ)) 0).C))ᵀ) 0 0 = 1 / 3
    rw [hs0, msolve, cinv]
    simp only [Matrix.det_fin_one, Matrix.adjugate_fin_one,
      Matrix.transpose_apply, Matrix.mul_apply, Fin.sum_univ_one,
      Matrix.smul_apply, Matrix.one_apply_eq, Matrix.add_apply]
    rw [sC0]
    norm_num
  have hg0 : (genericSmoothingElem (⟨1, 1, 1, 1, 0, 1⟩ : LGSSMParams ℚ 1 1)
      ((lgssm_filter (⟨1, 1, 1, 1, 0, 1⟩ : LGSSMParams ℚ 1 1)
        (fun _ _ => (2 : ℚ))).filtered_means 0)
      ((lgssm_filter (⟨1, 1, 1, 1, 0, 1⟩ : LGSSMParams ℚ 1 1)
        (fun _ _ => (2 : ℚ))).filtered_covariances 0)).g 0 = 2 / 3 := by
    show ((lgssmScan (⟨1, 1, 1, 1, 0, 1⟩ : LGSSMParams ℚ 1 1)
        (fun _ _ => (2 : ℚ)) 0).b -
      ((msolve ((⟨1, 1, 1, 1, 0, 1⟩ : LGSSMParams ℚ 1 1).dynamics_matrix *
        (lgssmScan (⟨1, 1, 1, 1, 0, 1⟩ : LGSSMParams ℚ 1 1)
          (fun _ _ => (2 : ℚ)) 0).C *
        ((⟨1, 1, 1, 1, 0, 1⟩ : LGSSMParams ℚ 1 1).dynamics_matrix)ᵀ +
        (⟨1, 1, 1, 1, 0, 1⟩ : LGSSMParams ℚ 1 1).dynamics_covariance)
        ((⟨1, 1, 1, 1, 0, 1⟩ : LGSSMParams ℚ 1 1).dynamics_matrix *
        (lgssmScan (⟨1, 1, 1, 1, 0, 1⟩ : LGSSMParams ℚ 1 1)
          (fun _ _ => (2 : ℚ)) 0).C))ᵀ).mulVec
        (((⟨1, 1, 1, 1, 0, 1⟩ : LGSSMParams ℚ 1 1).dynamics_matrix).mulVec
          (lgssmScan (⟨1, 1, 1, 1, 0, 1⟩ : LGSSMParams ℚ 1 1)
            (fun _ _ => (2 : ℚ)) 0).b)) 0 = 2 / 3
    rw [hs0, msolve, cinv]
    simp only [Matrix.det_fin_one, Matrix.adjugate_fin_one,
      Matrix.transpose_apply, Matrix.mul_apply, Fin.sum_univ_one,
      Matrix.smul_apply, Matrix.one_apply_eq, Matrix.add_apply,
      Matrix.mulVec, Matrix.dotProduct, Pi.sub_apply]
    rw [sb0, sC0]
    norm_num
  have hif0 : ((if (0 : ℕ) = 2 - 1 then
      smoothingElems (⟨1, 1, 1, 1, 0, 1⟩ : LGSSMParams ℚ 1 1)
        (lgssm_filter (⟨1, 1, 1, 1, 0, 1⟩ : LGSSMParams ℚ 1 1)
          (fun _ _ => (2 : ℚ))).filtered_means
        (lgssm_filter (⟨1, 1, 1, 1, 0, 1⟩ : LGSSMParams ℚ 1 1)
          (fun _ _ => (2 : ℚ))).filtered_covariances 2 (2 - 1)
    else revScan smoothing_operator
      (smoothingElems (⟨1, 1, 1, 1, 0, 1⟩ : LGSSMParams ℚ 1 1)
        (lgssm_filter (⟨1, 1, 1, 1, 0, 1⟩ : LGSSMParams ℚ 1 1)
          (fun _ _ => (2 : ℚ))).filtered_means
        (lgssm_filter (⟨1, 1, 1, 1, 0, 1⟩ : LGSSMParams ℚ 1 1)
          (fun _ _ => (2 : ℚ))).filtered_covariances 2) (2 - 2) 0)).g 0 =
      (smoothingElems (⟨1, 1, 1, 1, 0, 1⟩ : LGSSMParams ℚ 1 1)
        (lgssm_filter (⟨1, 1, 1, 1, 0, 1⟩ : LGSSMParams ℚ 1 1)
          (fun _ _ => (2 : ℚ))).filtered_means
        (lgssm_filter (⟨1, 1, 1, 1, 0, 1⟩ : LGSSMParams ℚ 1 1)
          (fun _ _ => (2 : ℚ))).filtered_covariances 2 0).g 0 := by
    norm_num [revScan, revScanAux]
  have hel0 : smoothingElems (⟨1, 1, 1, 1, 0, 1⟩ : LGSSMParams ℚ 1 1)
      (lgssm_filter (⟨1, 1, 1, 1, 0, 1⟩ : LGSSMParams ℚ 1 1)
        (fun _ _ => (2 : ℚ))).filtered_means
      (lgssm_filter (⟨1, 1, 1, 1, 0, 1⟩ : LGSSMParams ℚ 1 1)
        (fun _ _ => (2 : ℚ))).filtered_covariances 2 0 =
      genericSmoothingElem (⟨1, 1, 1, 1, 0, 1⟩ : LGSSMParams ℚ 1 1)
        ((lgssm_filter (⟨1, 1, 1, 1, 0, 1⟩ : LGSSMParams ℚ 1 1)
          (fun _ _ => (2 : ℚ))).filtered_means 0)
        ((lgssm_filter (⟨1, 1, 1, 1, 0, 1⟩ : LGSSMParams ℚ 1 1)
          (fun _ _ => (2 : ℚ))).filtered_covariances 0) := by
    norm_num [smoothingElems]
  have hel1 : smoothingElems (⟨1, 1, 1, 1, 0, 1⟩ : LGSSMParams ℚ 1 1)
      (lgssm_filter (⟨1, 1, 1, 1, 0, 1⟩ : LGSSMParams ℚ 1 1)
        (fun _ _ => (2 : ℚ))).filtered_means
      (lgssm_filter (⟨1, 1, 1, 1, 0, 1⟩ : LGSSMParams ℚ 1 1)
        (fun _ _ => (2 : ℚ))).filtered_covariances 2 1 =
      ⟨0, (lgssm_filter (⟨1, 1, 1, 1, 0, 1⟩ : LGSSMParams ℚ 1 1)
        (fun _ _ => (2 : ℚ))).filtered_means 1,
       (lgssm_filter (⟨1, 1, 1, 1, 0, 1⟩ : LGSSMParams ℚ 1 1)
        (fun _ _ => (2 : ℚ))).filtered_covariances 1⟩ := by
    norm_num [smoothingElems]
  have hcode : (smoothing_operator
      (⟨0, (lgssm_filter (⟨1, 1, 1, 1, 0, 1⟩ : LGSSMParams ℚ 1 1)
        (fun _ _ => (2 : ℚ))).filtered_means 1,
       (lgssm_filter (⟨1, 1, 1, 1, 0, 1⟩ : LGSSMParams ℚ 1 1)
        (fun _ _ => (2 : ℚ))).filtered_covariances 1⟩ : SmoothElem ℚ 1)
      (genericSmoothingElem (⟨1, 1, 1, 1, 0, 1⟩ : LGSSMParams ℚ 1 1)
        ((lgssm_filter (⟨1, 1, 1, 1, 0, 1⟩ : LGSSMParams ℚ 1 1)
          (fun _ _ => (2 : ℚ))).filtered_means 0)
        ((lgssm_filter (⟨1, 1, 1, 1, 0, 1⟩ : LGSSMParams ℚ 1 1)
          (fun _ _ => (2 : ℚ))).filtered_covariances 0))).g 0 = 6 / 5 := by
    show ((genericSmoothingElem (⟨1, 1, 1, 1, 0, 1⟩ : LGSSMParams ℚ 1 1)
        ((lgssm_filter (⟨1, 1, 1, 1, 0, 1⟩ : LGSSMParams ℚ 1 1)
          (fun _ _ => (2 : ℚ))).filtered_means 0)
        ((lgssm_filter (⟨1, 1, 1, 1, 0, 1⟩ : LGSSMParams ℚ 1 1)
          (fun _ _ => (2 : ℚ))).filtered_covariances 0)).E.mulVec
        ((lgssm_filter (⟨1, 1, 1, 1, 0, 1⟩ : LGSSMParams ℚ 1 1)
          (fun _ _ => (2 : ℚ))).filtered_means 1) +
      (genericSmoothingElem (⟨1, 1, 1, 1, 0, 1⟩ : LGSSMParams ℚ 1 1)
        ((lgssm_filter (⟨1, 1, 1, 1, 0, 1⟩ : LGSSMParams ℚ 1 1)
          (fun _ _ => (2 : ℚ))).filtered_means 0)
        ((lgssm_filter (⟨1, 1, 1, 1, 0, 1⟩ : LGSSMParams ℚ 1 1)
          (fun _ _ => (2 : ℚ))).filtered_covariances 0)).g) 0 = 6 / 5
    rw [Pi.add_apply, Matrix.mulVec, Matrix.dotProduct, Fin.sum_univ_one,
      hE0, hg0]
    show 1 / 3 * (lgssmScan (⟨1, 1, 1, 1, 0, 1⟩ : LGSSMParams ℚ 1 1)
      (fun _ _ => (2 : ℚ)) 1).b 0 + 2 / 3 = 6 / 5
    rw [sfm1]
    norm_num
  intro h
  have hLcode : (lgssm_smoother (⟨1, 1, 1, 1, 0, 1⟩ : LGSSMParams ℚ 1 1)
      (fun _ _ => (2 : ℚ)) 2).smoothed_means =
      some (fun t => (revScan smoothing_operator
        (smoothingElems (⟨1, 1, 1, 1, 0, 1⟩ : LGSSMParams ℚ 1 1)
          (lgssm_filter (⟨1, 1, 1, 1, 0, 1⟩ : LGSSMParams ℚ 1 1)
            (fun _ _ => (2 : ℚ))).filtered_means
          (lgssm_filter (⟨1, 1, 1, 1, 0, 1⟩ : LGSSMParams ℚ 1 1)
            (fun _ _ => (2 : ℚ))).filtered_covariances 2) (2 - 1) t).g) := rfl
  have hLclaim : (lgssmSmootherClaimed
      (⟨1, 1, 1, 1, 0, 1⟩ : LGSSMParams ℚ 1 1)
      (fun _ _ => (2 : ℚ)) 2).smoothed_means =
      some (fun t => ((if t = 2 - 1 then
        smoothingElems (⟨1, 1, 1, 1, 0, 1⟩ : LGSSMParams ℚ 1 1)
          (lgssm_filter (⟨1, 1, 1, 1, 0, 1⟩ : LGSSMParams ℚ 1 1)
            (fun _ _ => (2 : ℚ))).filtered_means
          (lgssm_filter (⟨1, 1, 1, 1, 0, 1⟩ : LGSSMParams ℚ 1 1)
            (fun _ _ => (2 : ℚ))).filtered_covariances 2 (2 - 1)
      else revScan smoothing_operator
        (smoothingElems (⟨1, 1, 1, 1, 0, 1⟩ : LGSSMParams ℚ 1 1)
          (lgssm_filter (⟨1, 1, 1, 1, 0, 1⟩ : LGSSMParams ℚ 1 1)
            (fun _ _ => (2 : ℚ))).filtered_means
          (lgssm_filter (⟨1, 1, 1, 1, 0, 1⟩ : LGSSMParams ℚ 1 1)
            (fun _ _ => (2 : ℚ))).filtered_covariances 2) (2 - 2) t)).g) :=
    rfl
  rw [hLcode, hLclaim] at h
  have hfg := Option.some.inj h
  have h0 := congrFun (congrFun hfg 0) 0
  rw [hif0] at h0
  rw [hrev, hel0, hel1] at h0
  rw [hcode, hg0] at h0
  norm_num at h0

/-- Claim C6 amended: the last smoothing element is the identity-like triple
(E = 0, g = filtered mean at T-1, L = filtered covariance at T-1); it is
appended to the element array before the reverse scan, which runs over all T
elements; since the inclusive reverse scan leaves the last position as the
bare last element, the returned smoothed mean and covariance at T-1 equal the
filtered ones. -/
theorem C6_smoother_last_element :
    ∀ (F : Type) [Field F] (d em : ℕ) (p : LGSSMParams F d em)
      (ys : ℕ → Fin em → F) (T : ℕ),
      (smoothingElems p (lgssm_filter p ys).filtered_means
          (lgssm_filter p ys).filtered_covariances T) (T - 1) =
        ⟨0, (lgssm_filter p ys).filtered_means (T - 1),
         (lgssm_filter p ys).filtered_covariances (T - 1)⟩ ∧
      Option.map (fun f => f (T - 1)) (lgssm_smoother p ys T).smoothed_means =
        some ((lgssm_filter p ys).filtered_means (T - 1)) ∧
      Option.map (fun f => f (T - 1))
          (lgssm_smoother p ys T).smoothed_covariances =
        some ((lgssm_filter p ys).filtered_covariances (T - 1)) := by
  intro F _ d em p ys T
  have hlast : (smoothingElems p (lgssm_filter p ys).filtered_means
      (lgssm_filter p ys).filtered_covariances T) (T - 1) =
      ⟨0, (lgssm_filter p ys).filtered_means (T - 1),
       (lgssm_filter p ys).filtered_covariances (T - 1)⟩ := by
    simp [smoothingElems]
  have hrev : revScan smoothing_operator
      (smoothingElems p (lgssm_filter p ys).filtered_means
        (lgssm_filter p ys).filtered_covariances T) (T - 1) (T - 1) =
      (smoothingElems p (lgssm_filter p ys).filtered_means
        (lgssm_filter p ys).filtered_covariances T) (T - 1) := by
    rw [revScan, Nat.sub_self]
    rfl
  refine ⟨hlast, ?_, ?_⟩
  · show Option.map (fun f => f (T - 1))
      (some (fun t => (revScan smoothing_operator
        (smoothingElems p (lgssm_filter p ys).filtered_means
          (lgssm_filter p ys).filtered_covariances T) (T - 1) t).g)) = _
    rw [Option.map_some']
    rw [show (fun f => f (T - 1)) (fun t => (revScan smoothing_operator
      (smoothingElems p (lgssm_filter p ys).filtered_means
        (lgssm_filter p ys).filtered_covariances T) (T - 1) t).g) =
      (revScan smoothing_operator
        (smoothingElems p (lgssm_filter p ys).filtered_means
          (lgssm_filter p ys).filtered_covariances T) (T - 1) (T - 1)).g
      from rfl]
    rw [hrev, hlast]
  · show Option.map (fun f => f (T - 1))
      (some (fun t => (revScan smoothing_operator
        (smoothingElems p (lgssm_filter p ys).filtered_means
          (lgssm_filter p ys).filtered_covariances T) (T - 1) t).L)) = _
    rw [Option.map_some']
    rw [show (fun f => f (T - 1)) (fun t => (revScan smoothing_operator
      (smoothingElems p (lgssm_filter p ys).filtered_means
        (lgssm_filter p ys).filtered_covariances T) (T - 1) t).L) =
      (revScan smoothing_operator
        (smoothingElems p (lgssm_filter p ys).filtered_means
          (lgssm_filter p ys).filtered_covariances T) (T - 1) (T - 1)).L
      from rfl]
    rw [hrev, hlast]

/-! ### Conditioning lemmas for the HMM algebra -/

theorem condVec_fst {K : ℕ} [NeZero K] (a ll : Fin K → ℝ) (j : Fin K) :
    (condVec a ll).1 j =
      a j * Real.exp (ll j) / ∑ k, a k * Real.exp (ll k) := by
  have hm : Real.exp (vecMax ll) ≠ 0 := (Real.exp_pos _).ne'
  simp only [condVec, Real.exp_sub]
  rw [show (∑ k, a k * (Real.exp (ll k) / Real.exp (vecMax ll))) =
      (∑ k, a k * Real.exp (ll k)) / Real.exp (vecMax ll) by
    rw [Finset.sum_div]
    exact Finset.sum_congr rfl fun k _ => (mul_div_assoc _ _ _).symm]
  rw [← mul_div_assoc]
  exact div_div_div_cancel_right₀ hm _ _

theorem condVec_snd {K : ℕ} [NeZero K] (a ll : Fin K → ℝ)
    (h : 0 < ∑ k, a k * Real.exp (ll k)) :
    (condVec a ll).2 = Real.log (∑ k, a k * Real.exp (ll k)) := by
  have hm : (0 : ℝ) < Real.exp (vecMax ll) := Real.exp_pos _
  simp only [condVec, Real.exp_sub]
  rw [show (∑ k, a k * (Real.exp (ll k) / Real.exp (vecMax ll))) =
      (∑ k, a k * Real.exp (ll k)) / Real.exp (vecMax ll) by
    rw [Finset.sum_div]
    exact Finset.sum_congr rfl fun k _ => (mul_div_assoc _ _ _).symm]
  rw [Real.log_div h.ne' hm.ne', Real.log_exp]
  ring

theorem condMat_fst {K : ℕ} [NeZero K] (A : Matrix (Fin K) (Fin K) ℝ)
    (ll : Fin K → ℝ) (i j : Fin K) :
    (condMat A ll).1 i j =
      A i j * Real.exp (ll j) / ∑ k, A i k * Real.exp (ll k) := by
  have hm : Real.exp (vecMax ll) ≠ 0 := (Real.exp_pos _).ne'
  simp only [condMat, Real.exp_sub]
  rw [show (∑ k, A i k * (Real.exp (ll k) / Real.exp (vecMax ll))) =
      (∑ k, A i k * Real.exp (ll k)) / Real.exp (vecMax ll) by
    rw [Finset.sum_div]
    exact Finset.sum_congr rfl fun k _ => (mul_div_assoc _ _ _).symm]
  rw [← mul_div_assoc]
  exact div_div_div_cancel_right₀ hm _ _

theorem condMat_snd {K : ℕ} [NeZero K] (A : Matrix (Fin K) (Fin K) ℝ)
    (ll : Fin K → ℝ) (i : Fin K)
    (h : 0 < ∑ k, A i k * Real.exp (ll k)) :
    (condMat A ll).2 i = Real.log (∑ k, A i k * Real.exp (ll k)) := by
  have hm : (0 : ℝ) < Real.exp (vecMax ll) := Real.exp_pos _
  simp only [condMat, Real.exp_sub]
  rw [show (∑ k, A i k * (Real.exp (ll k) / Real.exp (vecMax ll))) =
      (∑ k, A i k * Real.exp (ll k)) / Real.exp (vecMax ll) by
    rw [Finset.sum_div]
    exact Finset.sum_congr rfl fun k _ => (mul_div_assoc _ _ _).symm]
  rw [Real.log_div h.ne' hm.ne', Real.log_exp]
  ring

theorem condMat_row_sum {K : ℕ} [NeZero K] (A : Matrix (Fin K) (Fin K) ℝ)
    (ll : Fin K → ℝ) (i : Fin K)
    (h : (∑ k, A i k * Real.exp (ll k)) ≠ 0) :
    ∑ j, (condMat A ll).1 i j = 1 := by
  rw [show (∑ j, (condMat A ll).1 i j) =
      ∑ j, A i j * Real.exp (ll j) / ∑ k, A i k * Real.exp (ll k) from
    Finset.sum_congr rfl fun j _ => condMat_fst A ll i j]
  rw [← Finset.sum_div, div_self h]

/-! ### Sequential forward algorithm: invariants and scan equivalence -/

/-- Invariants of the sequential forward algorithm: the filtered distribution
is nonnegative and sums to one, and each step normaliser is positive. -/
theorem seqForward_props {K : ℕ} [NeZero K] (pi0 : Fin K → ℝ)
    (Tm : Matrix (Fin K) (Fin K) ℝ) (lls : ℕ → Fin K → ℝ)
    (hpi : ∀ i, 0 ≤ pi0 i) (hpi1 : ∑ i, pi0 i = 1)
    (hT : ∀ i j, 0 ≤ Tm i j) (hT1 : ∀ i, ∑ j, Tm i j = 1) :
    ∀ t, (∀ j, 0 ≤ (seqForward pi0 Tm lls t).1 j) ∧
      (∑ j, (seqForward pi0 Tm lls t).1 j = 1) ∧
      0 < (seqForward pi0 Tm lls t).2 := by
  intro t
  induction t with
  | zero =>
    have hu : ∀ j, 0 ≤ pi0 j * Real.exp (lls 0 j) := fun j =>
      mul_nonneg (hpi j) (Real.exp_pos _).le
    have hS : 0 < ∑ k, pi0 k * Real.exp (lls 0 k) := by
      obtain ⟨i, -, hi⟩ : ∃ i ∈ Finset.univ, (0 : ℝ) < pi0 i := by
        by_contra hc
        push_neg at hc
        have : (∑ i, pi0 i) ≤ 0 :=
          Finset.sum_nonpos fun i hi => hc i hi
        rw [hpi1] at this
        linarith
      exact Finset.sum_pos' (fun j _ => hu j)
        ⟨i, Finset.mem_univ i, mul_pos hi (Real.exp_pos _)⟩
    refine ⟨fun j => ?_, ?_, ?_⟩
    · show 0 ≤ pi0 j * Real.exp (lls 0 j) / ∑ k, pi0 k * Real.exp (lls 0 k)
      exact div_nonneg (hu j) hS.le
    · show (∑ j, pi0 j * Real.exp (lls 0 j) / ∑ k, pi0 k * Real.exp (lls 0 k))
        = 1
      rw [← Finset.sum_div, div_self hS.ne']
    · exact hS
  | succ t ih =>
    obtain ⟨ha, ha1, -⟩ := ih
    have hv : ∀ j, 0 ≤ Matrix.vecMul (seqForward pi0 Tm lls t).1 Tm j := by
      intro j
      rw [show Matrix.vecMul (seqForward pi0 Tm lls t).1 Tm j =
          ∑ i, (seqForward pi0 Tm lls t).1 i * Tm i j from rfl]
      exact Finset.sum_nonneg fun i _ => mul_nonneg (ha i) (hT i j)
    have hv1 : ∑ j, Matrix.vecMul (seqForward pi0 Tm lls t).1 Tm j = 1 := by
      rw [show (∑ j, Matrix.vecMul (seqForward pi0 Tm lls t).1 Tm j) =
          ∑ j, ∑ i, (seqForward pi0 Tm lls t).1 i * Tm i j from rfl]
      rw [Finset.sum_comm]
      rw [show (∑ i, ∑ j, (seqForward pi0 Tm lls t).1 i * Tm i j) =
          ∑ i, (seqForward pi0 Tm lls t).1 i * ∑ j, Tm i j from
        Finset.sum_congr rfl fun i _ => (Finset.mul_sum _ _ _).symm]
      rw [show (∑ i, (seqForward pi0 Tm lls t).1 i * ∑ j, Tm i j) =
          ∑ i, (seqForward pi0 Tm lls t).1 i from
        Finset.sum_congr rfl fun i _ => by rw [hT1 i, mul_one]]
      exact ha1
    have hu : ∀ j, 0 ≤ Matrix.vecMul (seqForward pi0 Tm lls t).1 Tm j *
        Real.exp (lls (t + 1) j) := fun j =>
      mul_nonneg (hv j) (Real.exp_pos _).le
    have hS : 0 < ∑ k, Matrix.vecMul (seqForward pi0 Tm lls t).1 Tm k *
        Real.exp (lls (t + 1) k) := by
      obtain ⟨i, -, hi⟩ : ∃ i ∈ Finset.univ,
          (0 : ℝ) < Matrix.vecMul (seqForward pi0 Tm lls t).1 Tm i := by
        by_contra hc
        push_neg at hc
        have : (∑ j, Matrix.vecMul (seqForward pi0 Tm lls t).1 Tm j) ≤ 0 :=
          Finset.sum_nonpos fun j hj => hc j hj
        rw [hv1] at this
        linarith
      exact Finset.sum_pos' (fun j _ => hu j)
        ⟨i, Finset.mem_univ i, mul_pos hi (Real.exp_pos _)⟩
    refine ⟨fun j => ?_, ?_, ?_⟩
    · show 0 ≤ Matrix.vecMul (seqForward pi0 Tm lls t).1 Tm j *
        Real.exp (lls (t + 1) j) /
        ∑ k, Matrix.vecMul (seqForward pi0 Tm lls t).1 Tm k *
          Real.exp (lls (t + 1) k)
      exact div_nonneg (hu j) hS.le
    · show (∑ j, Matrix.vecMul (seqForward pi0 Tm lls t).1 Tm j *
        Real.exp (lls (t + 1) j) /
        ∑ k, Matrix.vecMul (seqForward pi0 Tm lls t).1 Tm k *
          Real.exp (lls (t + 1) k)) = 1
      rw [← Finset.sum_div, div_self hS.ne']
    · exact hS

theorem exists_pos_of_sum_one {K : ℕ} (a : Fin K → ℝ)
    (h1 : ∑ i, a i = 1) : ∃ i, 0 < a i := by
  by_contra hc
  push_neg at hc
  have : (∑ i, a i) ≤ 0 := Finset.sum_nonpos fun i _ => hc i
  rw [h1] at this
  linarith

theorem weight_pos {K : ℕ} [NeZero K] (a ll : Fin K → ℝ)
    (ha : ∀ i, 0 ≤ a i) (hsum : ∑ i, a i = 1) :
    0 < ∑ k, a k * Real.exp (ll k) := by
  obtain ⟨i, hi⟩ := exists_pos_of_sum_one a hsum
  exact Finset.sum_pos'
    (fun j _ => mul_nonneg (ha j) (Real.exp_pos _).le)
    ⟨i, Finset.mem_univ i, mul_pos hi (Real.exp_pos _)⟩

/-- The scanned parallel messages in terms of the sequential forward
algorithm: every row of the t-th scanned A equals the sequential filtered
distribution at t, and every entry of the t-th scanned log_b equals the
accumulated log-normaliser through time t. -/
theorem hmmScan_eq {K : ℕ} [NeZero K] (pi0 : Fin K → ℝ)
    (Tm : Matrix (Fin K) (Fin K) ℝ) (lls : ℕ → Fin K → ℝ)
    (hpi : ∀ i, 0 ≤ pi0 i) (hpi1 : ∑ i, pi0 i = 1)
    (hT : ∀ i j, 0 ≤ Tm i j) (hT1 : ∀ i, ∑ j, Tm i j = 1) :
    ∀ t, (hmmScan pi0 Tm lls t).A =
        (fun _ j => (seqForward pi0 Tm lls t).1 j) ∧
      (hmmScan pi0 Tm lls t).log_b =
        (fun _ => ∑ s ∈ Finset.range (t + 1),
          Real.log (seqForward pi0 Tm lls s).2) := by
  intro t
  induction t with
  | zero =>
    have hS : 0 < ∑ k, pi0 k * Real.exp (lls 0 k) :=
      weight_pos pi0 (lls 0) hpi hpi1
    have h0 : hmmScan pi0 Tm lls 0 =
        ⟨fun _ j => (condVec pi0 (lls 0)).1 j,
         fun _ => (condVec pi0 (lls 0)).2⟩ := by
      simp [hmmScan, fwdScan, hmmMessage]
    rw [h0]
    constructor
    · funext i j
      show (condVec pi0 (lls 0)).1 j = (seqForward pi0 Tm lls 0).1 j
      rw [condVec_fst]
      rfl
    · funext i
      show (condVec pi0 (lls 0)).2 =
        ∑ s ∈ Finset.range 1, Real.log (seqForward pi0 Tm lls s).2
      rw [condVec_snd pi0 (lls 0) hS, Finset.range_one,
        Finset.sum_singleton]
      rfl
  | succ t ih =>
    obtain ⟨ihA, ihL⟩ := ih
    obtain ⟨hα, hα1, -⟩ :=
      seqForward_props pi0 Tm lls hpi hpi1 hT hT1 t
    have hn : ∀ j, 0 < ∑ k, Tm j k * Real.exp (lls (t + 1) k) := fun j =>
      weight_pos (fun k => Tm j k) (lls (t + 1)) (hT j) (hT1 j)
    -- the combined normaliser is the sequential step normaliser
    have hD : (∑ j, (seqForward pi0 Tm lls t).1 j *
        ∑ k, Tm j k * Real.exp (lls (t + 1) k)) =
        (seqForward pi0 Tm lls (t + 1)).2 := by
      show _ = ∑ k, Matrix.vecMul (seqForward pi0 Tm lls t).1 Tm k *
        Real.exp (lls (t + 1) k)
      rw [show (∑ j, (seqForward pi0 Tm lls t).1 j *
          ∑ k, Tm j k * Real.exp (lls (t + 1) k)) =
          ∑ j, ∑ k, (seqForward pi0 Tm lls t).1 j *
            (Tm j k * Real.exp (lls (t + 1) k)) from
        Finset.sum_congr rfl fun j _ => Finset.mul_sum _ _ _]
      rw [Finset.sum_comm]
      refine Finset.sum_congr rfl fun k _ => ?_
      rw [show Matrix.vecMul (seqForward pi0 Tm lls t).1 Tm k =
          ∑ j, (seqForward pi0 Tm lls t).1 j * Tm j k from rfl]
      rw [Finset.sum_mul]
      exact Finset.sum_congr rfl fun j _ => by ring
    have hDpos : 0 < ∑ j, (seqForward pi0 Tm lls t).1 j *
        ∑ k, Tm j k * Real.exp (lls (t + 1) k) := by
      obtain ⟨i, hi⟩ := exists_pos_of_sum_one _ hα1
      exact Finset.sum_pos'
        (fun j _ => mul_nonneg (hα j) (hn j).le)
        ⟨i, Finset.mem_univ i, mul_pos hi (hn i)⟩
    have hstep : hmmScan pi0 Tm lls (t + 1) =
        marginalize (hmmScan pi0 Tm lls t)
          (hmmMessage pi0 Tm lls (t + 1)) := rfl
    have hmsg : hmmMessage pi0 Tm lls (t + 1) =
        ⟨(condMat Tm (lls (t + 1))).1, (condMat Tm (lls (t + 1))).2⟩ := by
      simp [hmmMessage]
    -- the re-conditioned first factor
    have hcond1 : ∀ i j,
        (condMat (fun _ j => (seqForward pi0 Tm lls t).1 j)
          (condMat Tm (lls (t + 1))).2).1 i j =
        (seqForward pi0 Tm lls t).1 j *
          (∑ k, Tm j k * Real.exp (lls (t + 1) k)) /
        ∑ j', (seqForward pi0 Tm lls t).1 j' *
          ∑ k, Tm j' k * Real.exp (lls (t + 1) k) := by
      intro i j
      rw [condMat_fst]
      rw [show ((condMat Tm (lls (t + 1))).2 : Fin K → ℝ) =
          fun j => Real.log (∑ k, Tm j k * Real.exp (lls (t + 1) k)) from
        funext fun j => condMat_snd Tm (lls (t + 1)) j (hn j)]
      rw [show (∑ k, (seqForward pi0 Tm lls t).1 k *
          Real.exp (Real.log (∑ k', Tm k k' * Real.exp (lls (t + 1) k')))) =
          ∑ k, (seqForward pi0 Tm lls t).1 k *
            ∑ k', Tm k k' * Real.exp (lls (t + 1) k') from
        Finset.sum_congr rfl fun k _ => by rw [Real.exp_log (hn k)]]
      rw [Real.exp_log (hn j)]
    constructor
    · rw [hstep, hmsg, marginalize, ihA]
      funext i k
      dsimp only
      rw [Matrix.mul_apply]
      rw [show (∑ j, (condMat (fun _ j => (seqForward pi0 Tm lls t).1 j)
            (condMat Tm (lls (t + 1))).2).1 i j *
            (condMat Tm (lls (t + 1))).1 j k) =
          ∑ j, ((seqForward pi0 Tm lls t).1 j *
              (∑ k', Tm j k' * Real.exp (lls (t + 1) k')) /
            ∑ j', (seqForward pi0 Tm lls t).1 j' *
              ∑ k', Tm j' k' * Real.exp (lls (t + 1) k')) *
            (Tm j k * Real.exp (lls (t + 1) k) /
              ∑ k', Tm j k' * Real.exp (lls (t + 1) k')) from
        Finset.sum_congr rfl fun j _ => by rw [hcond1, condMat_fst]]
      rw [show (∑ j, ((seqForward pi0 Tm lls t).1 j *
            (∑ k', Tm j k' * Real.exp (lls (t + 1) k')) /
          ∑ j', (seqForward pi0 Tm lls t).1 j' *
            ∑ k', Tm j' k' * Real.exp (lls (t + 1) k')) *
          (Tm j k * Real.exp (lls (t + 1) k) /
            ∑ k', Tm j k' * Real.exp (lls (t + 1) k'))) =
          ∑ j, (seqForward pi0 Tm lls t).1 j *
            (Tm j k * Real.exp (lls (t + 1) k)) /
          ∑ j', (seqForward pi0 Tm lls t).1 j' *
            ∑ k', Tm j' k' * Real.exp (lls (t + 1) k') from
        Finset.sum_congr rfl fun j _ => by
          rw [div_mul_div_comm, mul_right_comm,
            mul_div_mul_right _ _ (hn j).ne']]
      rw [← Finset.sum_div, hD]
      show (∑ j, (seqForward pi0 Tm lls t).1 j *
          (Tm j k * Real.exp (lls (t + 1) k))) /
          (seqForward pi0 Tm lls (t + 1)).2 =
        (seqForward pi0 Tm lls (t + 1)).1 k
      rw [show (∑ j, (seqForward pi0 Tm lls t).1 j *
          (Tm j k * Real.exp (lls (t + 1) k))) =
          Matrix.vecMul (seqForward pi0 Tm lls t).1 Tm k *
            Real.exp (lls (t + 1) k) by
        rw [show Matrix.vecMul (seqForward pi0 Tm lls t).1 Tm k =
            ∑ j, (seqForward pi0 Tm lls t).1 j * Tm j k from rfl]
        rw [Finset.sum_mul]
        exact Finset.sum_congr rfl fun j _ => by ring]
      rfl
    · rw [hstep, hmsg, marginalize, ihA, ihL]
      funext i
      dsimp only
      have hsum_eq : (∑ k, (seqForward pi0 Tm lls t).1 k *
          Real.exp ((condMat Tm (lls (t + 1))).2 k)) =
          ∑ k, (seqForward pi0 Tm lls t).1 k *
            ∑ k', Tm k k' * Real.exp (lls (t + 1) k') :=
        Finset.sum_congr rfl fun k _ => by
          rw [show ((condMat Tm (lls (t + 1))).2 k) =
              Real.log (∑ k', Tm k k' * Real.exp (lls (t + 1) k')) from
            condMat_snd Tm (lls (t + 1)) k (hn k)]
          rw [Real.exp_log (hn k)]
      rw [condMat_snd _ _ _ (by rw [hsum_eq]; exact hDpos)]
      rw [hsum_eq, hD]
      simp [Finset.sum_range_succ]

/-! ### Claim C1 -/

/-- Claim C1: for every initial distribution on the simplex, row-stochastic
transition matrix and log-likelihood sequence, the parallel hmm_filter
returns, in exact arithmetic, the same filtered probabilities and marginal
log-likelihood as the classical sequential forward algorithm, for every
length T ≥ 1 (including T = 1). -/
theorem C1_parallel_filter_matches_sequential :
    ∀ (K : ℕ) [NeZero K] (pi0 : Fin K → ℝ)
      (Tm : Matrix (Fin K) (Fin K) ℝ) (lls : ℕ → Fin K → ℝ) (T : ℕ),
      (∀ i, 0 ≤ pi0 i) → (∑ i, pi0 i = 1) →
      (∀ i j, 0 ≤ Tm i j) → (∀ i, ∑ j, Tm i j = 1) → 1 ≤ T →
      (∀ t, (hmm_filter pi0 Tm lls T).filtered_probs t =
        (seqForward pi0 Tm lls t).1) ∧
      (hmm_filter pi0 Tm lls T).marginal_loglik =
        seqLoglik pi0 Tm lls T := by
  intro K _ pi0 Tm lls T hpi hpi1 hT hT1 hT'
  constructor
  · intro t
    show (hmmScan pi0 Tm lls t).A 0 = _
    rw [(hmmScan_eq pi0 Tm lls hpi hpi1 hT hT1 t).1]
  · show (hmmScan pi0 Tm lls (T - 1)).log_b 0 = _
    rw [(hmmScan_eq pi0 Tm lls hpi hpi1 hT hT1 (T - 1)).2]
    show (∑ s ∈ Finset.range (T - 1 + 1),
      Real.log (seqForward pi0 Tm lls s).2) = _
    rw [Nat.sub_add_cancel hT']
    rfl

/-- Witness for C1 at the concrete one-state model with uniform parameters
and zero log-likelihoods, T = 1. -/
theorem C1_parallel_filter_matches_sequential_witness :
    ((∑ i : Fin 1, (1 : ℝ)) = 1) ∧
    ((∀ t, (hmm_filter (fun _ : Fin 1 => (1 : ℝ)) 1 (fun _ _ => 0)
        1).filtered_probs t =
      (seqForward (fun _ : Fin 1 => (1 : ℝ)) 1 (fun _ _ => 0) t).1) ∧
     (hmm_filter (fun _ : Fin 1 => (1 : ℝ)) 1 (fun _ _ => 0)
        1).marginal_loglik =
      seqLoglik (fun _ : Fin 1 => (1 : ℝ)) 1 (fun _ _ => 0) 1) :=
  ⟨by simp,
   C1_parallel_filter_matches_sequential 1 (fun _ => 1) 1 (fun _ _ => 0) 1
     (fun i => by norm_num) (by simp)
     (fun i j => by
       fin_cases i
       fin_cases j
       simp [Matrix.one_apply])
     (fun i => by
       fin_cases i
       simp [Matrix.one_apply])
     (by norm_num)⟩

/-! ### Claim C5 -/

theorem vecMul_row_total {K : ℕ} (f : Fin K → ℝ)
    (Tm : Matrix (Fin K) (Fin K) ℝ) (hT1 : ∀ i, ∑ j, Tm i j = 1) :
    ∑ j, Matrix.vecMul f Tm j = ∑ i, f i := by
  rw [show (∑ j, Matrix.vecMul f Tm j) = ∑ j, ∑ i, f i * Tm i j from rfl]
  rw [Finset.sum_comm]
  refine Finset.sum_congr rfl fun i _ => ?_
  rw [← Finset.mul_sum, hT1 i, mul_one]

/-- Claim C5: for every valid HMM input every row of filtered_probs and
predicted_probs sums to one, and after every conditioning step each row of
the conditioned matrix sums to one whenever its normaliser is nonzero (the
log-normalisers are real numbers, hence finite, by construction of the
embedding). -/
theorem C5_simplex_invariant :
    (∀ (K : ℕ) [NeZero K] (pi0 : Fin K → ℝ)
      (Tm : Matrix (Fin K) (Fin K) ℝ) (lls : ℕ → Fin K → ℝ) (T : ℕ),
      (∀ i, 0 ≤ pi0 i) → (∑ i, pi0 i = 1) →
      (∀ i j, 0 ≤ Tm i j) → (∀ i, ∑ j, Tm i j = 1) →
      ∀ t, (∑ j, (hmm_filter pi0 Tm lls T).filtered_probs t j = 1) ∧
        (∑ j, (hmm_filter pi0 Tm lls T).predicted_probs t j = 1)) ∧
    (∀ (K : ℕ) [NeZero K] (A : Matrix (Fin K) (Fin K) ℝ)
      (ll : Fin K → ℝ) (i : Fin K),
      (∑ k, A i k * Real.exp (ll k)) ≠ 0 →
      ∑ j, (condMat A ll).1 i j = 1) := by
  constructor
  · intro K _ pi0 Tm lls T hpi hpi1 hT hT1 t
    have hfil : ∀ u, ∑ j, (hmm_filter pi0 Tm lls T).filtered_probs u j
        = 1 := by
      intro u
      have h := (hmmScan_eq pi0 Tm lls hpi hpi1 hT hT1 u).1
      rw [show ((hmm_filter pi0 Tm lls T).filtered_probs u) =
          (hmmScan pi0 Tm lls u).A 0 from rfl, h]
      exact (seqForward_props pi0 Tm lls hpi hpi1 hT hT1 u).2.1
    refine ⟨hfil t, ?_⟩
    rcases Nat.eq_zero_or_pos t with ht | ht
    · subst ht
      rw [show ((hmm_filter pi0 Tm lls T).predicted_probs 0) = pi0 by
        simp [hmm_filter]]
      exact hpi1
    · rw [show ((hmm_filter pi0 Tm lls T).predicted_probs t) =
          Matrix.vecMul ((hmm_filter pi0 Tm lls T).filtered_probs (t - 1))
            Tm by
        simp [hmm_filter, Nat.pos_iff_ne_zero.mp ht]]
      rw [vecMul_row_total _ Tm hT1]
      exact hfil (t - 1)
  · intro K _ A ll i h
    exact condMat_row_sum A ll i h

/-- Witness for C5 at the concrete one-state model, t = 0. -/
theorem C5_simplex_invariant_witness :
    ((∑ i : Fin 1, (1 : ℝ)) = 1) ∧
    ((∑ j, (hmm_filter (fun _ : Fin 1 => (1 : ℝ)) 1 (fun _ _ => 0)
        1).filtered_probs 0 j = 1) ∧
     (∑ j, (hmm_filter (fun _ : Fin 1 => (1 : ℝ)) 1 (fun _ _ => 0)
        1).predicted_probs 0 j = 1)) :=
  ⟨by simp,
   (C5_simplex_invariant.1 1 (fun _ => 1) 1 (fun _ _ => 0) 1
     (fun i => by norm_num) (by simp)
     (fun i j => by
       fin_cases i
       fin_cases j
       simp [Matrix.one_apply])
     (fun i => by
       fin_cases i
       simp [Matrix.one_apply])) 0⟩

/-! ### Claim C9 -/

/-- Rescaling the initial distribution by c > 0 leaves every scanned A
unchanged and shifts every scanned log-weight by log c. -/
theorem hmmScan_scale {K : ℕ} [NeZero K] (pi0 : Fin K → ℝ)
    (Tm : Matrix (Fin K) (Fin K) ℝ) (lls : ℕ → Fin K → ℝ) (c : ℝ)
    (hc : 0 < c) (hpi : ∀ i, 0 ≤ pi0 i) (hpi1 : ∑ i, pi0 i = 1) :
    ∀ t, (hmmScan (fun i => c * pi0 i) Tm lls t).A =
        (hmmScan pi0 Tm lls t).A ∧
      (hmmScan (fun i => c * pi0 i) Tm lls t).log_b =
        fun i => Real.log c + (hmmScan pi0 Tm lls t).log_b i := by
  have hS : 0 < ∑ k, pi0 k * Real.exp (lls 0 k) :=
    weight_pos pi0 (lls 0) hpi hpi1
  have hsum : (∑ k, c * pi0 k * Real.exp (lls 0 k)) =
      c * ∑ k, pi0 k * Real.exp (lls 0 k) := by
    rw [Finset.mul_sum]
    exact Finset.sum_congr rfl fun k _ => by ring
  intro t
  induction t with
  | zero =>
    have h0 : ∀ (q : Fin K → ℝ), hmmScan q Tm lls 0 =
        ⟨fun _ j => (condVec q (lls 0)).1 j,
         fun _ => (condVec q (lls 0)).2⟩ := by
      intro q
      simp [hmmScan, fwdScan, hmmMessage]
    rw [h0, h0]
    constructor
    · funext i j
      show (condVec (fun i => c * pi0 i) (lls 0)).1 j =
        (condVec pi0 (lls 0)).1 j
      rw [condVec_fst, condVec_fst, hsum, mul_assoc,
        mul_div_mul_left _ _ hc.ne']
    · funext i
      show (condVec (fun i => c * pi0 i) (lls 0)).2 =
        Real.log c + (condVec pi0 (lls 0)).2
      rw [condVec_snd _ _ (by rw [hsum]; exact mul_pos hc hS),
        condVec_snd pi0 (lls 0) hS, hsum,
        Real.log_mul hc.ne' hS.ne']
  | succ t ih =>
    obtain ⟨ihA, ihL⟩ := ih
    have hstep : ∀ (q : Fin K → ℝ), hmmScan q Tm lls (t + 1) =
        marginalize (hmmScan q Tm lls t)
          (hmmMessage q Tm lls (t + 1)) := fun q => rfl
    have hmsg : ∀ (q : Fin K → ℝ), hmmMessage q Tm lls (t + 1) =
        ⟨(condMat Tm (lls (t + 1))).1, (condMat Tm (lls (t + 1))).2⟩ := by
      intro q
      simp [hmmMessage]
    rw [hstep, hstep, hmsg, hmsg, marginalize, marginalize, ihA, ihL]
    constructor
    · rfl
    · funext i
      dsimp only
      ring

/-- Claim C9 counterexample: hmm_filter does not fail fast on an initial
distribution off the simplex — on the all-ones length-2 vector (total mass
2) it returns exactly the same filtered probabilities as on the renormalised
uniform distribution, i.e. the input is silently renormalised by the
conditioning step. -/
theorem C9_no_fail_fast_counterexample :
    ((∑ i : Fin 2, (fun _ : Fin 2 => (1 : ℝ)) i) ≠ 1) ∧
    (hmm_filter (fun _ : Fin 2 => (1 : ℝ)) (fun _ _ => (1 : ℝ) / 2)
        (fun _ _ => 0) 1).filtered_probs 0 =
      (hmm_filter (fun _ : Fin 2 => (1 : ℝ) / 2) (fun _ _ => (1 : ℝ) / 2)
        (fun _ _ => 0) 1).filtered_probs 0 := by
  constructor
  · rw [Fin.sum_univ_two]
    norm_num
  · have h0 : ∀ (q : Fin 2 → ℝ), hmmScan q (fun _ _ => (1 : ℝ) / 2)
        (fun _ _ => 0) 0 =
        ⟨fun _ j => (condVec q (fun _ => 0)).1 j,
         fun _ => (condVec q (fun _ => 0)).2⟩ := by
      intro q
      simp [hmmScan, fwdScan, hmmMessage]
    show (hmmScan (fun _ : Fin 2 => (1 : ℝ)) (fun _ _ => (1 : ℝ) / 2)
        (fun _ _ => 0) 0).A 0 =
      (hmmScan (fun _ : Fin 2 => (1 : ℝ) / 2) (fun _ _ => (1 : ℝ) / 2)
        (fun _ _ => 0) 0).A 0
    rw [h0, h0]
    funext j
    show (condVec (fun _ : Fin 2 => (1 : ℝ)) (fun _ => 0)).1 j =
      (condVec (fun _ : Fin 2 => (1 : ℝ) / 2) (fun _ => 0)).1 j
    rw [condVec_fst, condVec_fst]
    simp [Fin.sum_univ_two]

/-- Claim C9 amended: hmm_filter performs no input validation; a positively
rescaled (hence off-simplex) initial distribution is accepted and silently
renormalised — the filtered probabilities are unchanged and the marginal
log-likelihood absorbs the extra mass as an additive log c — and the only
renormalisation performed is the likelihood-conditioning step. -/
theorem C9_scale_invariance :
    ∀ (K : ℕ) [NeZero K] (pi0 : Fin K → ℝ)
      (Tm : Matrix (Fin K) (Fin K) ℝ) (lls : ℕ → Fin K → ℝ) (T : ℕ)
      (c : ℝ), 0 < c → (∀ i, 0 ≤ pi0 i) → (∑ i, pi0 i = 1) →
      (∀ t, (hmm_filter (fun i => c * pi0 i) Tm lls T).filtered_probs t =
        (hmm_filter pi0 Tm lls T).filtered_probs t) ∧
      (hmm_filter (fun i => c * pi0 i) Tm lls T).marginal_loglik =
        Real.log c + (hmm_filter pi0 Tm lls T).marginal_loglik := by
  intro K _ pi0 Tm lls T c hc hpi hpi1
  constructor
  · intro t
    show (hmmScan (fun i => c * pi0 i) Tm lls t).A 0 =
      (hmmScan pi0 Tm lls t).A 0
    rw [(hmmScan_scale pi0 Tm lls c hc hpi hpi1 t).1]
  · show (hmmScan (fun i => c * pi0 i) Tm lls (T - 1)).log_b 0 =
      Real.log c + (hmmScan pi0 Tm lls (T - 1)).log_b 0
    rw [(hmmScan_scale pi0 Tm lls c hc hpi hpi1 (T - 1)).2]

/-- Witness for the amended C9 at the concrete one-state model, c = 2. -/
theorem C9_scale_invariance_witness :
    ((0 : ℝ) < 2) ∧
    ((∀ t, (hmm_filter (fun i : Fin 1 => 2 * (1 : ℝ)) 1 (fun _ _ => 0)
        1).filtered_probs t =
      (hmm_filter (fun _ : Fin 1 => (1 : ℝ)) 1 (fun _ _ => 0)
        1).filtered_probs t) ∧
     (hmm_filter (fun i : Fin 1 => 2 * (1 : ℝ)) 1 (fun _ _ => 0)
        1).marginal_loglik =
      Real.log 2 + (hmm_filter (fun _ : Fin 1 => (1 : ℝ)) 1 (fun _ _ => 0)
        1).marginal_loglik) :=
  ⟨by norm_num,
   C9_scale_invariance 1 (fun _ => 1) 1 (fun _ _ => 0) 1 2 (by norm_num)
     (fun i => by norm_num) (by simp)⟩

/-! ### Claim C10 -/

/-- Claim C10: each smoother returns the filtering outputs unchanged —
lgssm_smoother passes through lgssm_filter's moments exactly, and
hmm_smoother's marginal log-likelihood, filtered and predicted probabilities
equal hmm_filter's on the same (strictly positive, so that the exp-log round
trip is exact) arguments. -/
theorem C10_smoothers_preserve_filter_outputs :
    (∀ (F : Type) [Field F] (d em : ℕ) (p : LGSSMParams F d em)
      (ys : ℕ → Fin em → F) (T : ℕ),
      (lgssm_smoother p ys T).filtered_means =
        (lgssm_filter p ys).filtered_means ∧
      (lgssm_smoother p ys T).filtered_covariances =
        (lgssm_filter p ys).filtered_covariances) ∧
    (∀ (K : ℕ) [NeZero K] (pi0 : Fin K → ℝ)
      (Tm : Matrix (Fin K) (Fin K) ℝ) (lls : ℕ → Fin K → ℝ) (T : ℕ),
      (∀ i, 0 < pi0 i) → (∀ i j, 0 < Tm i j) →
      (hmm_smoother pi0 Tm lls T).marginal_loglik =
        (hmm_filter pi0 Tm lls T).marginal_loglik ∧
      (hmm_smoother pi0 Tm lls T).filtered_probs =
        (hmm_filter pi0 Tm lls T).filtered_probs ∧
      (hmm_smoother pi0 Tm lls T).predicted_probs =
        (hmm_filter pi0 Tm lls T).predicted_probs) := by
  constructor
  · intro F _ d em p ys T
    exact ⟨rfl, rfl⟩
  · intro K _ pi0 Tm lls T hpi hTm
    have hp : (fun i => Real.exp (Real.log (pi0 i))) = pi0 :=
      funext fun i => Real.exp_log (hpi i)
    have hM : (fun i j => Real.exp (Real.log (Tm i j))) = Tm :=
      funext fun i => funext fun j => Real.exp_log (hTm i j)
    refine ⟨?_, ?_, ?_⟩
    · show (hmm_filter (fun i => Real.exp (Real.log (pi0 i)))
        (fun i j => Real.exp (Real.log (Tm i j))) lls T).marginal_loglik = _
      rw [hp, hM]
    · show (hmm_filter (fun i => Real.exp (Real.log (pi0 i)))
        (fun i j => Real.exp (Real.log (Tm i j))) lls T).filtered_probs = _
      rw [hp, hM]
    · show (hmm_filter (fun i => Real.exp (Real.log (pi0 i)))
        (fun i j => Real.exp (Real.log (Tm i j))) lls T).predicted_probs = _
      rw [hp, hM]

/-- Witness for C10 (HMM half) at the concrete one-state model. -/
theorem C10_smoothers_preserve_filter_outputs_witness :
    ((0 : ℝ) < 1) ∧
    ((hmm_smoother (fun _ : Fin 1 => (1 : ℝ)) (fun _ _ => 1) (fun _ _ => 0)
        1).marginal_loglik =
      (hmm_filter (fun _ : Fin 1 => (1 : ℝ)) (fun _ _ => 1) (fun _ _ => 0)
        1).marginal_loglik ∧
     (hmm_smoother (fun _ : Fin 1 => (1 : ℝ)) (fun _ _ => 1) (fun _ _ => 0)
        1).filtered_probs =
      (hmm_filter (fun _ : Fin 1 => (1 : ℝ)) (fun _ _ => 1) (fun _ _ => 0)
        1).filtered_probs ∧
     (hmm_smoother (fun _ : Fin 1 => (1 : ℝ)) (fun _ _ => 1) (fun _ _ => 0)
        1).predicted_probs =
      (hmm_filter (fun _ : Fin 1 => (1 : ℝ)) (fun _ _ => 1) (fun _ _ => 0)
        1).predicted_probs) :=
  ⟨by norm_num,
   C10_smoothers_preserve_filter_outputs.2 1 (fun _ => 1) (fun _ _ => 1)
     (fun _ _ => 0) 1 (fun i => by norm_num) (fun i j => by norm_num)⟩

/-! ### One-state closed forms for the gradient-based smoother -/

/-- For a one-state chain with positive parameters, every scanned A entry is
1 and the scanned log-weight accumulates log pi0, t copies of log Tm and the
log-likelihoods through time t. -/
theorem hmmScan_one_state (pi0 : Fin 1 → ℝ)
    (Tm : Matrix (Fin 1) (Fin 1) ℝ) (lls : ℕ → Fin 1 → ℝ)
    (hpi : 0 < pi0 0) (hTm : 0 < Tm 0 0) :
    ∀ t, (hmmScan pi0 Tm lls t).A = (fun _ _ => 1) ∧
      (hmmScan pi0 Tm lls t).log_b =
        (fun _ => Real.log (pi0 0) + (t : ℝ) * Real.log (Tm 0 0) +
          ∑ s ∈ Finset.range (t + 1), lls s 0) := by
  intro t
  induction t with
  | zero =>
    have h0 : hmmScan pi0 Tm lls 0 =
        ⟨fun _ j => (condVec pi0 (lls 0)).1 j,
         fun _ => (condVec pi0 (lls 0)).2⟩ := by
      simp [hmmScan, fwdScan, hmmMessage]
    rw [h0]
    constructor
    · funext i j
      show (condVec pi0 (lls 0)).1 j = 1
      rw [condVec_fst, Fin.sum_univ_one, Fin.eq_zero j]
      exact div_self (mul_pos hpi (Real.exp_pos _)).ne'
    · funext i
      show (condVec pi0 (lls 0)).2 = _
      rw [condVec_snd pi0 (lls 0) (by
        rw [Fin.sum_univ_one]
        exact mul_pos hpi (Real.exp_pos _))]
      rw [Fin.sum_univ_one, Real.log_mul hpi.ne' (Real.exp_pos _).ne',
        Real.log_exp, Finset.range_one, Finset.sum_singleton]
      push_cast
      ring
  | succ t ih =>
    obtain ⟨ihA, ihL⟩ := ih
    have hstep : hmmScan pi0 Tm lls (t + 1) =
        marginalize (hmmScan pi0 Tm lls t)
          (hmmMessage pi0 Tm lls (t + 1)) := rfl
    have hmsg : hmmMessage pi0 Tm lls (t + 1) =
        ⟨(condMat Tm (lls (t + 1))).1, (condMat Tm (lls (t + 1))).2⟩ := by
      simp [hmmMessage]
    have hlb2 : (condMat Tm (lls (t + 1))).2 0 =
        Real.log (Tm 0 0) + lls (t + 1) 0 := by
      rw [condMat_snd Tm (lls (t + 1)) 0 (by
        rw [Fin.sum_univ_one]
        exact mul_pos hTm (Real.exp_pos _))]
      rw [Fin.sum_univ_one, Real.log_mul hTm.ne' (Real.exp_pos _).ne',
        Real.log_exp]
    have hm2A : ∀ j k, (condMat Tm (lls (t + 1))).1 j k = 1 := by
      intro j k
      rw [condMat_fst, Fin.sum_univ_one, Fin.eq_zero j, Fin.eq_zero k]
      exact div_self (mul_pos hTm (Real.exp_pos _)).ne'
    have hcond1 : ∀ i j, (condMat (fun (_ _ : Fin 1) => (1 : ℝ))
        (condMat Tm (lls (t + 1))).2).1 i j = 1 := by
      intro i j
      rw [condMat_fst, Fin.sum_univ_one, Fin.eq_zero j, one_mul]
      exact div_self (Real.exp_pos _).ne'
    rw [hstep, hmsg, marginalize, ihA, ihL]
    constructor
    · funext i k
      dsimp only
      rw [Matrix.mul_apply, Fin.sum_univ_one, hcond1, hm2A, one_mul]
    · funext i
      dsimp only
      rw [show ((condMat (fun (_ _ : Fin 1) => (1 : ℝ))
          (condMat Tm (lls (t + 1))).2).2 i) =
          Real.log (Tm 0 0) + lls (t + 1) 0 by
        rw [condMat_snd _ _ _ (by
          rw [Fin.sum_univ_one, one_mul]
          exact Real.exp_pos _)]
        rw [Fin.sum_univ_one, one_mul, Real.log_exp, hlb2]]
      rw [Finset.sum_range_succ (fun s => lls s 0) (t + 1)]
      push_cast
      ring

/-- The one-state marginal log-likelihood in closed form. -/
theorem hmm_filter_loglik_one_state (pi0 : Fin 1 → ℝ)
    (Tm : Matrix (Fin 1) (Fin 1) ℝ) (lls : ℕ → Fin 1 → ℝ) (T : ℕ)
    (hpi : 0 < pi0 0) (hTm : 0 < Tm 0 0) (h1 : 1 ≤ T) :
    (hmm_filter pi0 Tm lls T).marginal_loglik =
      Real.log (pi0 0) + ((T : ℝ) - 1) * Real.log (Tm 0 0) +
        ∑ s ∈ Finset.range T, lls s 0 := by
  show (hmmScan pi0 Tm lls (T - 1)).log_b 0 = _
  rw [(hmmScan_one_state pi0 Tm lls hpi hTm (T - 1)).2]
  rw [Nat.sub_add_cancel h1]
  rw [Nat.cast_sub h1]
  norm_num

/-- The log-normalizer of hmm_smoother in closed form for one state: the
exponentials make the parameters positive, so no positivity hypotheses are
needed. -/
theorem logNormalizer_one_state (lp : Fin 1 → ℝ)
    (lM : Matrix (Fin 1) (Fin 1) ℝ) (lls : ℕ → Fin 1 → ℝ) (T : ℕ)
    (h1 : 1 ≤ T) :
    logNormalizer lp lM lls T =
      lp 0 + ((T : ℝ) - 1) * lM 0 0 + ∑ s ∈ Finset.range T, lls s 0 := by
  rw [logNormalizer, hmm_filter_loglik_one_state _ _ _ _ (Real.exp_pos _)
    (Real.exp_pos _) h1, Real.log_exp, Real.log_exp]

theorem deriv_affine (a c b x : ℝ) :
    deriv (fun s => a + c * s + b) x = c := by
  have h := (((hasDerivAt_id x).const_mul c).const_add a).add_const b
  simpa using h.deriv

/-- The (0,0) entry of hmm_smoother's trans_probs for a one-state chain is
the expected transition count T - 1. -/
theorem hmmSmootherTransProbs_one_state (pi0 : Fin 1 → ℝ)
    (Tm : Matrix (Fin 1) (Fin 1) ℝ) (lls : ℕ → Fin 1 → ℝ) (T : ℕ)
    (h1 : 1 ≤ T) :
    hmmSmootherTransProbs pi0 Tm lls T 0 0 = (T : ℝ) - 1 := by
  unfold hmmSmootherTransProbs
  rw [show (fun s => logNormalizer (fun a => Real.log (pi0 a))
      (updMat (fun a b => Real.log (Tm a b)) 0 0 s) lls T) =
      fun s => Real.log (pi0 0) + ((T : ℝ) - 1) * s +
        ∑ u ∈ Finset.range T, lls u 0 from
    funext fun s => by
      rw [logNormalizer_one_state _ _ _ _ h1]
      simp [updMat]]
  exact deriv_affine _ _ _ _

/-- The (t,0) entry of hmm_smoother's smoothed_probs for a one-state chain
is the smoothed probability 1, for every t < T. -/
theorem hmmSmootherSmoothedProbs_one_state (pi0 : Fin 1 → ℝ)
    (Tm : Matrix (Fin 1) (Fin 1) ℝ) (lls : ℕ → Fin 1 → ℝ) (T t : ℕ)
    (h1 : 1 ≤ T) (ht : t < T) :
    hmmSmootherSmoothedProbs pi0 Tm lls T t 0 = 1 := by
  unfold hmmSmootherSmoothedProbs
  rw [show (fun s => logNormalizer (fun a => Real.log (pi0 a))
      (fun a b => Real.log (Tm a b)) (updSeq lls t 0 s) T) =
      fun s => (Real.log (pi0 0) + ((T : ℝ) - 1) * Real.log (Tm 0 0)) +
        (s + ∑ u ∈ (Finset.range T).erase t, lls u 0) from
    funext fun s => by
      rw [logNormalizer_one_state _ _ _ _ h1]
      rw [show (∑ u ∈ Finset.range T, updSeq lls t 0 s u 0) =
          s + ∑ u ∈ (Finset.range T).erase t, lls u 0 by
        rw [← Finset.add_sum_erase _ (fun u => updSeq lls t 0 s u 0)
          (Finset.mem_range.mpr ht)]
        have h1 : updSeq lls t 0 s t 0 = s := by simp [updSeq]
        have h2 : (∑ u ∈ (Finset.range T).erase t, updSeq lls t 0 s u 0) =
            ∑ u ∈ (Finset.range T).erase t, lls u 0 :=
          Finset.sum_congr rfl fun u hu => by
            simp [updSeq, Finset.ne_of_mem_erase hu]
        rw [h1, h2]]]
  have h := ((hasDerivAt_id (lls t 0)).add_const
      (∑ u ∈ (Finset.range T).erase t, lls u 0)).const_add
    (Real.log (pi0 0) + ((T : ℝ) - 1) * Real.log (Tm 0 0))
  simpa using h.deriv

/-- The claim's trans_probs (gradient with respect to the log initial
distribution) for a one-state chain is 1, not T - 1. -/
theorem claimedTransProbsSpec_one_state (pi0 : Fin 1 → ℝ)
    (Tm : Matrix (Fin 1) (Fin 1) ℝ) (lls : ℕ → Fin 1 → ℝ) (T : ℕ)
    (h1 : 1 ≤ T) :
    claimedTransProbsSpec pi0 Tm lls T 0 = 1 := by
  unfold claimedTransProbsSpec
  rw [show (fun s => logNormalizer (updVec (fun a => Real.log (pi0 a)) 0 s)
      (fun a b => Real.log (Tm a b)) lls T) =
      fun s => s + ((T : ℝ) - 1) * Real.log (Tm 0 0) +
        ∑ u ∈ Finset.range T, lls u 0 from
    funext fun s => by
      rw [logNormalizer_one_state _ _ _ _ h1]
      simp [updVec]]
  have h := ((hasDerivAt_id (Real.log (pi0 0))).add_const
      (((T : ℝ) - 1) * Real.log (Tm 0 0))).add_const
    (∑ u ∈ Finset.range T, lls u 0)
  simpa using h.deriv

/-- The claim's smoothed_probs (gradient with respect to the log transition
matrix) for a one-state chain is T - 1, not the smoothed probability 1. -/
theorem claimedSmoothedProbsSpec_one_state (pi0 : Fin 1 → ℝ)
    (Tm : Matrix (Fin 1) (Fin 1) ℝ) (lls : ℕ → Fin 1 → ℝ) (T : ℕ)
    (h1 : 1 ≤ T) :
    claimedSmoothedProbsSpec pi0 Tm lls T 0 0 = (T : ℝ) - 1 := by
  unfold claimedSmoothedProbsSpec
  rw [show (fun s => logNormalizer (fun a => Real.log (pi0 a))
      (updMat (fun a b => Real.log (Tm a b)) 0 0 s) lls T) =
      fun s => Real.log (pi0 0) + ((T : ℝ) - 1) * s +
        ∑ u ∈ Finset.range T, lls u 0 from
    funext fun s => by
      rw [logNormalizer_one_state _ _ _ _ h1]
      simp [updMat]]
  exact deriv_affine _ _ _ _

/-! ### Claim C7 -/

/-- Claim C7 counterexample: the source differentiates with respect to
argnums (1, 2), i.e. the log transition matrix and the log-likelihood
tensor, not the log initial distribution and the log transition matrix as
claimed.  On the one-state chain with unit parameters, zero log-likelihoods
and T = 3: the code's trans_probs entry is 2 while the claimed gradient with
respect to the log initial distribution is 1, and the code's
smoothed_probs[0] entry is 1 while the claimed gradient with respect to the
log transition matrix is 2. -/
theorem C7_gradient_argnums_counterexample :
    (hmmSmootherTransProbs (fun _ : Fin 1 => (1 : ℝ)) (fun _ _ => 1)
        (fun _ _ => 0) 3 0 0 ≠
      claimedTransProbsSpec (fun _ : Fin 1 => (1 : ℝ)) (fun _ _ => 1)
        (fun _ _ => 0) 3 0) ∧
    (hmmSmootherSmoothedProbs (fun _ : Fin 1 => (1 : ℝ)) (fun _ _ => 1)
        (fun _ _ => 0) 3 0 0 ≠
      claimedSmoothedProbsSpec (fun _ : Fin 1 => (1 : ℝ)) (fun _ _ => 1)
        (fun _ _ => 0) 3 0 0) := by
  constructor
  · rw [hmmSmootherTransProbs_one_state _ _ _ _ (by norm_num),
      claimedTransProbsSpec_one_state _ _ _ _ (by norm_num)]
    norm_num
  · rw [hmmSmootherSmoothedProbs_one_state _ _ _ _ _ (by norm_num)
        (by norm_num),
      claimedSmoothedProbsSpec_one_state _ _ _ _ (by norm_num)]
    norm_num

/-- Claim C7 amended: hmm_smoother obtains its outputs as the reverse-mode
gradients of the marginal log-likelihood with respect to the log transition
matrix and the log-likelihood tensor (argnums 1 and 2), aliased respectively
to trans_probs and smoothed_probs, with the smoothed initial distribution
returned as smoothed_probs[0]; for a one-state chain these gradients
evaluate to the expected transition count T - 1 and the smoothed
probabilities 1. -/
theorem C7_gradient_smoother_amended :
    (∀ (K : ℕ) [NeZero K] (pi0 : Fin K → ℝ)
      (Tm : Matrix (Fin K) (Fin K) ℝ) (lls : ℕ → Fin K → ℝ) (T : ℕ),
      (hmm_smoother pi0 Tm lls T).trans_probs =
        some (fun i j => hmmSmootherTransProbs pi0 Tm lls T i j) ∧
      (hmm_smoother pi0 Tm lls T).smoothed_probs =
        some (fun t k => hmmSmootherSmoothedProbs pi0 Tm lls T t k) ∧
      (hmm_smoother pi0 Tm lls T).initial_probs =
        some (fun k => hmmSmootherSmoothedProbs pi0 Tm lls T 0 k)) ∧
    (∀ (pi0 : Fin 1 → ℝ) (Tm : Matrix (Fin 1) (Fin 1) ℝ)
      (lls : ℕ → Fin 1 → ℝ) (T t : ℕ), 1 ≤ T → t < T →
      hmmSmootherSmoothedProbs pi0 Tm lls T t 0 = 1 ∧
      hmmSmootherTransProbs pi0 Tm lls T 0 0 = (T : ℝ) - 1) :=
  ⟨fun K _ pi0 Tm lls T => ⟨rfl, rfl, rfl⟩,
   fun pi0 Tm lls T t h1 ht =>
     ⟨hmmSmootherSmoothedProbs_one_state pi0 Tm lls T t h1 ht,
      hmmSmootherTransProbs_one_state pi0 Tm lls T h1⟩⟩

/-- Witness for the amended C7 at the one-state chain with T = 1. -/
theorem C7_gradient_smoother_amended_witness :
    ((1 : ℕ) ≤ 1 ∧ (0 : ℕ) < 1) ∧
    (hmmSmootherSmoothedProbs (fun _ : Fin 1 => (1 : ℝ)) (fun _ _ => 1)
        (fun _ _ => 0) 1 0 0 = 1 ∧
     hmmSmootherTransProbs (fun _ : Fin 1 => (1 : ℝ)) (fun _ _ => 1)
        (fun _ _ => 0) 1 0 0 = ((1 : ℕ) : ℝ) - 1) :=
  ⟨⟨le_refl 1, by norm_num⟩,
   C7_gradient_smoother_amended.2 (fun _ => 1) (fun _ _ => 1)
     (fun _ _ => 0) 1 0 (le_refl 1) (by norm_num)⟩

/-! ### Associativity of the HMM combine operator -/

theorem exists_pos_of_sum_pos {K : ℕ} (a : Fin K → ℝ)
    (h : 0 < ∑ i, a i) : ∃ i, 0 < a i := by
  by_contra hc
  push_neg at hc
  have : (∑ i, a i) ≤ 0 := Finset.sum_nonpos fun i _ => hc i
  linarith

theorem weighted_sum_pos {K : ℕ} [NeZero K] (a w : Fin K → ℝ)
    (ha : ∀ j, 0 ≤ a j) (hsum : 0 < ∑ j, a j) (hw : ∀ j, 0 < w j) :
    0 < ∑ j, a j * w j := by
  obtain ⟨i, hi⟩ := exists_pos_of_sum_pos a hsum
  exact Finset.sum_pos' (fun j _ => mul_nonneg (ha j) (hw j).le)
    ⟨i, Finset.mem_univ i, mul_pos hi (hw i)⟩

/-- Entry formula for the combined A, with the stabilising max cancelled:
valid unconditionally (a zero normaliser makes both sides zero). -/
theorem marginalize_A {K : ℕ} [NeZero K] (m1 m2 : HMMMessage K)
    (i k : Fin K) :
    (marginalize m1 m2).A i k =
      (∑ j, m1.A i j * Real.exp (m2.log_b j) * m2.A j k) /
        ∑ j, m1.A i j * Real.exp (m2.log_b j) := by
  show ((condMat m1.A m2.log_b).1 * m2.A) i k = _
  rw [Matrix.mul_apply]
  rw [show (∑ j, (condMat m1.A m2.log_b).1 i j * m2.A j k) =
      ∑ j, m1.A i j * Real.exp (m2.log_b j) * m2.A j k /
        ∑ j', m1.A i j' * Real.exp (m2.log_b j') from
    Finset.sum_congr rfl fun j _ => by
      rw [condMat_fst, div_mul_eq_mul_div]]
  rw [← Finset.sum_div]

/-- Entry formula for the combined log-weight when the normaliser is
positive. -/
theorem marginalize_log_b {K : ℕ} [NeZero K] (m1 m2 : HMMMessage K)
    (i : Fin K) (hD : 0 < ∑ j, m1.A i j * Real.exp (m2.log_b j)) :
    (marginalize m1 m2).log_b i =
      m1.log_b i + Real.log (∑ j, m1.A i j * Real.exp (m2.log_b j)) := by
  show m1.log_b i + (condMat m1.A m2.log_b).2 i = _
  rw [condMat_snd _ _ _ hD]

/-- Associativity of marginalize on messages with entrywise nonnegative A
and positive row sums. -/
theorem marginalize_assoc {K : ℕ} [NeZero K] (m1 m2 m3 : HMMMessage K)
    (h1 : ∀ i j, 0 ≤ m1.A i j) (h1r : ∀ i, 0 < ∑ j, m1.A i j)
    (h2 : ∀ i j, 0 ≤ m2.A i j) (h2r : ∀ i, 0 < ∑ j, m2.A i j)
    (h3 : ∀ i j, 0 ≤ m3.A i j) (h3r : ∀ i, 0 < ∑ j, m3.A i j) :
    marginalize (marginalize m1 m2) m3 =
      marginalize m1 (marginalize m2 m3) := by
  have hD12 : ∀ i, 0 < ∑ j, m1.A i j * Real.exp (m2.log_b j) := fun i =>
    weighted_sum_pos _ _ (h1 i) (h1r i) fun j => Real.exp_pos _
  have hD23 : ∀ j, 0 < ∑ k, m2.A j k * Real.exp (m3.log_b k) := fun j =>
    weighted_sum_pos _ _ (h2 j) (h2r j) fun k => Real.exp_pos _
  have hEpos : ∀ i, 0 < ∑ j, m1.A i j * Real.exp (m2.log_b j) *
      ∑ k, m2.A j k * Real.exp (m3.log_b k) := by
    intro i
    obtain ⟨j0, hj0⟩ := exists_pos_of_sum_pos _ (h1r i)
    refine Finset.sum_pos' (fun j _ => ?_)
      ⟨j0, Finset.mem_univ j0, ?_⟩
    · exact mul_nonneg (mul_nonneg (h1 i j) (Real.exp_pos _).le)
        (hD23 j).le
    · exact mul_pos (mul_pos hj0 (Real.exp_pos _)) (hD23 j0)
  -- canonical double sums
  have hE : ∀ i, (∑ j, m1.A i j * Real.exp (m2.log_b j) *
      ∑ k, m2.A j k * Real.exp (m3.log_b k)) =
      ∑ j, ∑ k, m1.A i j * Real.exp (m2.log_b j) * m2.A j k *
        Real.exp (m3.log_b k) := by
    intro i
    refine Finset.sum_congr rfl fun j _ => ?_
    rw [Finset.mul_sum]
    exact Finset.sum_congr rfl fun k _ => by ring
  -- weighted row sums of the left-combined message
  have hrow12 : ∀ i, (∑ k, (marginalize m1 m2).A i k *
      Real.exp (m3.log_b k)) =
      (∑ j, ∑ k, m1.A i j * Real.exp (m2.log_b j) * m2.A j k *
        Real.exp (m3.log_b k)) /
        ∑ j, m1.A i j * Real.exp (m2.log_b j) := by
    intro i
    rw [show (∑ k, (marginalize m1 m2).A i k * Real.exp (m3.log_b k)) =
        ∑ k, (∑ j, m1.A i j * Real.exp (m2.log_b j) * m2.A j k) *
          Real.exp (m3.log_b k) /
          ∑ j, m1.A i j * Real.exp (m2.log_b j) from
      Finset.sum_congr rfl fun k _ => by
        rw [marginalize_A, div_mul_eq_mul_div]]
    rw [← Finset.sum_div]
    congr 1
    rw [Finset.sum_comm]
    refine Finset.sum_congr rfl fun j _ => ?_
    rw [Finset.sum_mul]
  -- the weighted row sums of m1 against the right-combined weights
  have hED : ∀ i, (∑ j, m1.A i j *
      Real.exp ((marginalize m2 m3).log_b j)) =
      ∑ j, ∑ k, m1.A i j * Real.exp (m2.log_b j) * m2.A j k *
        Real.exp (m3.log_b k) := by
    intro i
    rw [show (∑ j, m1.A i j * Real.exp ((marginalize m2 m3).log_b j)) =
        ∑ j, m1.A i j * Real.exp (m2.log_b j) *
          ∑ k, m2.A j k * Real.exp (m3.log_b k) from
      Finset.sum_congr rfl fun j _ => by
        rw [marginalize_log_b m2 m3 j (hD23 j), Real.exp_add,
          Real.exp_log (hD23 j)]
        ring]
    exact hE i
  refine HMMMessage.ext ?_ ?_
  · funext i l
    rw [marginalize_A, marginalize_A]
    -- left side: numerator and denominator both carry the factor 1/D12
    rw [show (∑ k, (marginalize m1 m2).A i k * Real.exp (m3.log_b k) *
        m3.A k l) =
        (∑ j, ∑ k, m1.A i j * Real.exp (m2.log_b j) * m2.A j k *
          Real.exp (m3.log_b k) * m3.A k l) /
          ∑ j, m1.A i j * Real.exp (m2.log_b j) from by
      rw [show (∑ k, (marginalize m1 m2).A i k * Real.exp (m3.log_b k) *
          m3.A k l) =
          ∑ k, (∑ j, m1.A i j * Real.exp (m2.log_b j) * m2.A j k) *
            Real.exp (m3.log_b k) * m3.A k l /
            ∑ j, m1.A i j * Real.exp (m2.log_b j) from
        Finset.sum_congr rfl fun k _ => by
          rw [marginalize_A, div_mul_eq_mul_div, div_mul_eq_mul_div]]
      rw [← Finset.sum_div]
      congr 1
      rw [Finset.sum_comm]
      refine Finset.sum_congr rfl fun j _ => ?_
      rw [Finset.sum_mul, Finset.sum_mul]]
    rw [hrow12 i]
    rw [div_div_div_cancel_right₀ (hD12 i).ne']
    -- right side
    rw [show (∑ j, m1.A i j * Real.exp ((marginalize m2 m3).log_b j) *
        (marginalize m2 m3).A j l) =
        ∑ j, ∑ k, m1.A i j * Real.exp (m2.log_b j) * m2.A j k *
          Real.exp (m3.log_b k) * m3.A k l from
      Finset.sum_congr rfl fun j _ => by
        rw [marginalize_log_b m2 m3 j (hD23 j), Real.exp_add,
          Real.exp_log (hD23 j), marginalize_A]
        rw [show m1.A i j * (Real.exp (m2.log_b j) *
            ∑ k, m2.A j k * Real.exp (m3.log_b k)) *
            ((∑ k, m2.A j k * Real.exp (m3.log_b k) * m3.A k l) /
              ∑ k, m2.A j k * Real.exp (m3.log_b k)) =
            m1.A i j * Real.exp (m2.log_b j) *
              (∑ k, m2.A j k * Real.exp (m3.log_b k) * m3.A k l) *
              ((∑ k, m2.A j k * Real.exp (m3.log_b k)) /
                ∑ k, m2.A j k * Real.exp (m3.log_b k)) from by ring]
        rw [div_self (hD23 j).ne', mul_one, Finset.mul_sum]
        exact Finset.sum_congr rfl fun k _ => by ring]
    rw [hED i]
  · funext i
    have hpos3 : 0 < ∑ k, (marginalize m1 m2).A i k *
        Real.exp (m3.log_b k) := by
      rw [hrow12 i]
      exact div_pos (by rw [← hE i]; exact hEpos i) (hD12 i)
    have hposR : 0 < ∑ j, m1.A i j *
        Real.exp ((marginalize m2 m3).log_b j) := by
      rw [hED i, ← hE i]
      exact hEpos i
    rw [marginalize_log_b (marginalize m1 m2) m3 i hpos3,
      marginalize_log_b m1 (marginalize m2 m3) i hposR,
      marginalize_log_b m1 m2 i (hD12 i), hrow12 i, hED i,
      Real.log_div (by rw [← hE i]; exact (hEpos i).ne') (hD12 i).ne']
    ring

/-! ### Generic ring lemmas for the LGSSM associativity -/

/-- Push-through: a left inverse of 1 + UV carries U past a right inverse of
1 + VU. -/
theorem ring_push {R : Type*} [Ring R] {U V X Y : R}
    (hX : X * (1 + U * V) = 1) (hY : (1 + V * U) * Y = 1) :
    U * Y = X * U := by
  have h1 : (1 + U * V) * (U * Y) = U * ((1 + V * U) * Y) := by noncomm_ring
  calc U * Y = 1 * (U * Y) := by rw [one_mul]
    _ = (X * (1 + U * V)) * (U * Y) := by rw [hX]
    _ = X * ((1 + U * V) * (U * Y)) := by rw [mul_assoc]
    _ = X * (U * ((1 + V * U) * Y)) := by rw [h1]
    _ = X * (U * 1) := by rw [hY]
    _ = X * U := by rw [mul_one]

/-- A two-sided inverse of 1 + UV yields a right inverse of 1 + VU. -/
theorem ring_swap_right {R : Type*} [Ring R] {U V X : R}
    (hX : (1 + U * V) * X = 1) :
    (1 + V * U) * (1 - V * X * U) = 1 := by
  have h : (1 + V * U) * (1 - V * X * U) =
      1 + V * U - V * ((1 + U * V) * X) * U := by noncomm_ring
  rw [h, hX]
  noncomm_ring

/-- A two-sided inverse of 1 + UV yields a left inverse of 1 + VU. -/
theorem ring_swap_left {R : Type*} [Ring R] {U V X : R}
    (hX : X * (1 + U * V) = 1) :
    (1 - V * X * U) * (1 + V * U) = 1 := by
  have h : (1 - V * X * U) * (1 + V * U) =
      1 + V * U - V * (X * (1 + U * V)) * U := by noncomm_ring
  rw [h, hX]
  noncomm_ring

/-- A left inverse agrees with any right inverse. -/
theorem ring_inv_unique {R : Type*} [Ring R] {B W Wl : R}
    (h : B * W = 1) (hl : Wl * B = 1) : Wl = W := by
  calc Wl = Wl * (B * W) := by rw [h, mul_one]
    _ = (Wl * B) * W := by rw [mul_assoc]
    _ = W := by rw [hl, one_mul]

/-- The smoothing combine operator is associative, unconditionally. -/
theorem smoothing_operator_assoc {F : Type*} [Field F] {d : ℕ}
    (s1 s2 s3 : SmoothElem F d) :
    smoothing_operator (smoothing_operator s1 s2) s3 =
      smoothing_operator s1 (smoothing_operator s2 s3) := by
  refine SmoothElem.ext ?_ ?_ ?_
  · show s3.E * (s2.E * s1.E) = (s3.E * s2.E) * s1.E
    rw [Matrix.mul_assoc]
  · show s3.E.mulVec (s2.E.mulVec s1.g + s2.g) + s3.g =
      (s3.E * s2.E).mulVec s1.g + (s3.E.mulVec s2.g + s3.g)
    rw [Matrix.mulVec_add, Matrix.mulVec_mulVec, add_assoc]
  · show s3.E * (s2.E * s1.L * s2.Eᵀ + s2.L) * s3.Eᵀ + s3.L =
      (s3.E * s2.E) * s1.L * (s3.E * s2.E)ᵀ + (s3.E * s2.L * s3.Eᵀ + s3.L)
    rw [Matrix.transpose_mul]
    noncomm_ring

set_option maxHeartbeats 1600000 in
/-- The filtering combine operator is associative on elements with symmetric
covariance and precision parts, whenever the four linear systems solved by
the two association orders are nonsingular. -/
theorem filtering_operator_assoc {F : Type*} [Field F] {d : ℕ}
    (e1 e2 e3 : FilterElem F d)
    (hC1 : e1.Cᵀ = e1.C) (hC2 : e2.Cᵀ = e2.C)
    (hJ2 : e2.Jᵀ = e2.J) (hJ3 : e3.Jᵀ = e3.J)
    (hd2 : (1 + e1.C * e2.J).det ≠ 0)
    (hd3 : (1 + e2.C * e3.J).det ≠ 0)
    (hdL : (1 + (filtering_operator e1 e2).C * e3.J).det ≠ 0)
    (hdR : (1 + e1.C * (filtering_operator e2 e3).J).det ≠ 0) :
    filtering_operator (filtering_operator e1 e2) e3 =
      filtering_operator e1 (filtering_operator e2 e3) := by
  obtain ⟨A1, b1, C1, J1, eta1⟩ := e1
  obtain ⟨A2, b2, C2, J2, eta2⟩ := e2
  obtain ⟨A3, b3, C3, J3, eta3⟩ := e3
  dsimp only at hC1 hC2 hJ2 hJ3 hd2 hd3
  simp only [filtering_operator_eq] at hdL hdR ⊢
  set X2 := cinv (1 + C1 * J2) with hX2def
  set Y2 := cinv (1 + J2 * C1) with hY2def
  set X3 := cinv (1 + C2 * J3) with hX3def
  set Y3 := cinv (1 + J3 * C2) with hY3def
  set C12 := A2 * X2 * C1 * A2ᵀ + C2 with hC12def
  set J23 := A2ᵀ * Y3 * J3 * A2 + J2 with hJ23def
  set XL := cinv (1 + C12 * J3) with hXLdef
  set YL := cinv (1 + J3 * C12) with hYLdef
  set XR := cinv (1 + C1 * J23) with hXRdef
  set YR := cinv (1 + J23 * C1) with hYRdef
  -- two-sided inverse facts for the four systems
  have hX2 : (1 + C1 * J2) * X2 = 1 := by rw [hX2def]; exact mul_cinv hd2
  have hX2l : X2 * (1 + C1 * J2) = 1 := by rw [hX2def]; exact cinv_mul hd2
  have hY2e : Y2 = 1 - J2 * X2 * C1 := by
    rw [hY2def, hX2def]
    exact cinv_eq_of_mul_eq_one (ring_swap_right (mul_cinv hd2))
  have hY2 : (1 + J2 * C1) * Y2 = 1 := by
    rw [hY2e]; exact ring_swap_right hX2
  have hY2l : Y2 * (1 + J2 * C1) = 1 := by
    rw [hY2e]; exact ring_swap_left hX2l
  have hX3 : (1 + C2 * J3) * X3 = 1 := by rw [hX3def]; exact mul_cinv hd3
  have hX3l : X3 * (1 + C2 * J3) = 1 := by rw [hX3def]; exact cinv_mul hd3
  have hY3e : Y3 = 1 - J3 * X3 * C2 := by
    rw [hY3def, hX3def]
    exact cinv_eq_of_mul_eq_one (ring_swap_right (mul_cinv hd3))
  have hY3 : (1 + J3 * C2) * Y3 = 1 := by
    rw [hY3e]; exact ring_swap_right hX3
  have hY3l : Y3 * (1 + J3 * C2) = 1 := by
    rw [hY3e]; exact ring_swap_left hX3l
  have hXL : (1 + C12 * J3) * XL = 1 := by rw [hXLdef]; exact mul_cinv hdL
  have hXLl : XL * (1 + C12 * J3) = 1 := by rw [hXLdef]; exact cinv_mul hdL
  have hYLe : YL = 1 - J3 * XL * C12 := by
    rw [hYLdef, hXLdef]
    exact cinv_eq_of_mul_eq_one (ring_swap_right (mul_cinv hdL))
  have hYL : (1 + J3 * C12) * YL = 1 := by
    rw [hYLe]; exact ring_swap_right hXL
  have hXR : (1 + C1 * J23) * XR = 1 := by rw [hXRdef]; exact mul_cinv hdR
  have hXRl : XR * (1 + C1 * J23) = 1 := by rw [hXRdef]; exact cinv_mul hdR
  have hYRe : YR = 1 - J23 * XR * C1 := by
    rw [hYRdef, hXRdef]
    exact cinv_eq_of_mul_eq_one (ring_swap_right (mul_cinv hdR))
  have hYR : (1 + J23 * C1) * YR = 1 := by
    rw [hYRe]; exact ring_swap_right hXR
  have hYRl : YR * (1 + J23 * C1) = 1 := by
    rw [hYRe]; exact ring_swap_left hXRl
  clear_value X2 Y2 X3 Y3 XL YL XR YR
  clear hX2def hY2def hX3def hY3def hXLdef hYLdef hXRdef hYRdef
  clear hY2e hY3e hYLe hYRe hd2 hd3 hdL hdR
  -- push-through identities
  have ptC1Y2 : C1 * Y2 = X2 * C1 := ring_push hX2l hY2
  have ptJ2X2 : J2 * X2 = Y2 * J2 := ring_push hY2l hX2
  have ptJ3X3 : J3 * X3 = Y3 * J3 := ring_push hY3l hX3
  have ptC1YR : C1 * YR = XR * C1 := ring_push hXRl hYR
  have ptJ23XR : J23 * XR = YR * J23 := ring_push hYRl hXR
  -- transpose relations
  have tX2 : X2ᵀ = Y2 := by
    refine ring_inv_unique hY2 ?_
    have h := congrArg Matrix.transpose hX2
    rwa [Matrix.transpose_mul, Matrix.transpose_add, Matrix.transpose_mul,
      hC1, hJ2, Matrix.transpose_one] at h
  have tX3 : X3ᵀ = Y3 := by
    refine ring_inv_unique hY3 ?_
    have h := congrArg Matrix.transpose hX3
    rwa [Matrix.transpose_mul, Matrix.transpose_add, Matrix.transpose_mul,
      hC2, hJ3, Matrix.transpose_one] at h
  have tY3 : Y3ᵀ = X3 := by rw [← tX3, Matrix.transpose_transpose]
  have sC12 : C12ᵀ = C12 := by
    have key : (A2 * X2 * C1 * A2ᵀ)ᵀ = A2 * X2 * C1 * A2ᵀ := by
      calc (A2 * X2 * C1 * A2ᵀ)ᵀ
          = A2 * (C1ᵀ * X2ᵀ) * A2ᵀ := by
            rw [Matrix.transpose_mul, Matrix.transpose_mul,
              Matrix.transpose_mul, Matrix.transpose_transpose]
            noncomm_ring
        _ = A2 * (C1 * Y2) * A2ᵀ := by rw [hC1, tX2]
        _ = A2 * (X2 * C1) * A2ᵀ := by rw [ptC1Y2]
        _ = A2 * X2 * C1 * A2ᵀ := by noncomm_ring
    rw [hC12def, Matrix.transpose_add, key, hC2]
  have sJ23 : J23ᵀ = J23 := by
    have key : (A2ᵀ * Y3 * J3 * A2)ᵀ = A2ᵀ * Y3 * J3 * A2 := by
      calc (A2ᵀ * Y3 * J3 * A2)ᵀ
          = A2ᵀ * (J3ᵀ * Y3ᵀ) * A2 := by
            rw [Matrix.transpose_mul, Matrix.transpose_mul,
              Matrix.transpose_mul, Matrix.transpose_transpose]
            noncomm_ring
        _ = A2ᵀ * (J3 * X3) * A2 := by rw [hJ3, tY3]
        _ = A2ᵀ * (Y3 * J3) * A2 := by rw [ptJ3X3]
        _ = A2ᵀ * Y3 * J3 * A2 := by noncomm_ring
    rw [hJ23def, Matrix.transpose_add, key, hJ2]
  have tXL : XLᵀ = YL := by
    refine ring_inv_unique hYL ?_
    have h := congrArg Matrix.transpose hXL
    rwa [Matrix.transpose_mul, Matrix.transpose_add, Matrix.transpose_mul,
      sC12, hJ3, Matrix.transpose_one] at h
  have tXR : XRᵀ = YR := by
    refine ring_inv_unique hYR ?_
    have h := congrArg Matrix.transpose hXR
    rwa [Matrix.transpose_mul, Matrix.transpose_add, Matrix.transpose_mul,
      hC1, sJ23, Matrix.transpose_one] at h
  -- difference forms of J23
  have hD : A2ᵀ * (Y3 * J3) * A2 = J23 - J2 := by
    rw [hJ23def]; noncomm_ring
  have hDJ : A2ᵀ * Y3 * J3 * A2 = J23 - J2 := by
    rw [hJ23def]; noncomm_ring
  -- auxiliary scalar-style identities
  have v1 : YR * (J23 * C1) = 1 - YR := by
    calc YR * (J23 * C1) = YR * (1 + J23 * C1) - YR := by noncomm_ring
      _ = 1 - YR := by rw [hYRl]
  have w1 : Y2 * (J2 * C1) = 1 - Y2 := by
    calc Y2 * (J2 * C1) = Y2 * (1 + J2 * C1) - Y2 := by noncomm_ring
      _ = 1 - Y2 := by rw [hY2l]
  have y3j3c2 : Y3 * (J3 * C2) = 1 - Y3 := by
    calc Y3 * (J3 * C2) = Y3 * (1 + J3 * C2) - Y3 := by noncomm_ring
      _ = 1 - Y3 := by rw [hY3l]
  -- the exchange identity and the A-coefficient identity K1
  have K0 : A2 * (X2 * (1 + C1 * J23)) = (1 + C12 * J3) * (X3 * A2) := by
    have u1 : A2 * (X2 * (1 + C1 * J23)) =
        A2 * (X2 * (1 + C1 * J2)) + A2 * X2 * C1 * A2ᵀ * (Y3 * J3) * A2 := by
      rw [hJ23def]
      noncomm_ring
    have u2 : (1 + C12 * J3) * (X3 * A2) =
        (1 + C2 * J3) * X3 * A2 + A2 * X2 * C1 * A2ᵀ * (J3 * X3) * A2 := by
      rw [hC12def]
      noncomm_ring
    rw [u1, u2, hX2l, hX3, ptJ3X3]
    noncomm_ring
  have K1 : XL * (A2 * X2) = X3 * A2 * XR := by
    calc XL * (A2 * X2)
        = XL * (A2 * X2) * ((1 + C1 * J23) * XR) := by rw [hXR, mul_one]
      _ = XL * (A2 * (X2 * (1 + C1 * J23))) * XR := by noncomm_ring
      _ = XL * ((1 + C12 * J3) * (X3 * A2)) * XR := by rw [K0]
      _ = XL * (1 + C12 * J3) * (X3 * A2 * XR) := by noncomm_ring
      _ = X3 * A2 * XR := by rw [hXLl, one_mul]
  -- the two forms of the resolvent identity K3
  have K3l : X2 * C1 - XR * C1 * (J23 - J2) * (X2 * C1) = XR * C1 := by
    have t2 : 1 - XR * (C1 * J23) + XR * (C1 * J2) = XR * (1 + C1 * J2) := by
      calc 1 - XR * (C1 * J23) + XR * (C1 * J2)
          = XR * (1 + C1 * J23) - XR * (C1 * J23) + XR * (C1 * J2) := by
            rw [hXRl]
        _ = XR * (1 + C1 * J2) := by noncomm_ring
    calc X2 * C1 - XR * C1 * (J23 - J2) * (X2 * C1)
        = (1 - XR * (C1 * J23) + XR * (C1 * J2)) * (X2 * C1) := by
          noncomm_ring
      _ = (XR * (1 + C1 * J2)) * (X2 * C1) := by rw [t2]
      _ = XR * ((1 + C1 * J2) * X2) * C1 := by noncomm_ring
      _ = XR * C1 := by rw [hX2, mul_one]
  have K3 : X2 * C1 - X2 * C1 * (J23 - J2) * (XR * C1) = XR * C1 := by
    have u1 : 1 - J23 * (XR * C1) + J2 * (XR * C1) = (1 + J2 * C1) * YR := by
      calc 1 - J23 * (XR * C1) + J2 * (XR * C1)
          = 1 - (J23 * XR) * C1 + J2 * (XR * C1) := by noncomm_ring
        _ = 1 - (YR * J23) * C1 + J2 * (C1 * YR) := by
            rw [ptJ23XR, ← ptC1YR]
        _ = 1 - YR * (J23 * C1) + J2 * (C1 * YR) := by noncomm_ring
        _ = 1 - (1 - YR) + J2 * (C1 * YR) := by rw [v1]
        _ = (1 + J2 * C1) * YR := by noncomm_ring
    calc X2 * C1 - X2 * C1 * (J23 - J2) * (XR * C1)
        = (X2 * C1) * (1 - J23 * (XR * C1) + J2 * (XR * C1)) := by
          noncomm_ring
      _ = (X2 * C1) * ((1 + J2 * C1) * YR) := by rw [u1]
      _ = X2 * ((1 + C1 * J2) * C1) * YR := by noncomm_ring
      _ = X2 * (1 + C1 * J2) * C1 * YR := by noncomm_ring
      _ = C1 * YR := by rw [hX2l, one_mul]
      _ = XR * C1 := ptC1YR
  have hK3r : X2 * C1 * (J23 - J2) * (XR * C1) = X2 * C1 - XR * C1 := by
    calc X2 * C1 * (J23 - J2) * (XR * C1)
        = X2 * C1 - (X2 * C1 - X2 * C1 * (J23 - J2) * (XR * C1)) := by
          noncomm_ring
      _ = X2 * C1 - XR * C1 := by rw [K3]
  -- the Y-resolvent identity
  have Yid : YR + YR * (J23 - J2) * (X2 * C1) = Y2 := by
    calc YR + YR * (J23 - J2) * (X2 * C1)
        = YR * (1 + J23 * (X2 * C1) - (J2 * X2) * C1) := by noncomm_ring
      _ = YR * (1 + J23 * (C1 * Y2) - (Y2 * J2) * C1) := by
          rw [ptJ2X2, ← ptC1Y2]
      _ = YR * (1 + J23 * (C1 * Y2) - Y2 * (J2 * C1)) := by noncomm_ring
      _ = YR * (1 + J23 * (C1 * Y2) - (1 - Y2)) := by rw [w1]
      _ = YR * (1 + J23 * C1) * Y2 := by noncomm_ring
      _ = Y2 := by rw [hYRl, one_mul]
  -- the XL-expansion K2 and the C-coefficient identity K4
  have p1 : (1 + C12 * J3) * X3 =
      1 + A2 * (X2 * C1) * A2ᵀ * (Y3 * J3) := by
    rw [hC12def]
    calc (1 + (A2 * X2 * C1 * A2ᵀ + C2) * J3) * X3
        = (1 + C2 * J3) * X3 + A2 * (X2 * C1) * A2ᵀ * (J3 * X3) := by
          noncomm_ring
      _ = 1 + A2 * (X2 * C1) * A2ᵀ * (Y3 * J3) := by rw [hX3, ptJ3X3]
  have K2 : XL = X3 - X3 * (A2 * (XR * C1) * A2ᵀ * (Y3 * J3)) := by
    refine ring_inv_unique ?_ hXLl
    calc (1 + C12 * J3) * (X3 - X3 * (A2 * (XR * C1) * A2ᵀ * (Y3 * J3)))
        = (1 + C12 * J3) * X3 - (1 + C12 * J3) * X3 *
          (A2 * (XR * C1) * A2ᵀ * (Y3 * J3)) := by noncomm_ring
      _ = (1 + A2 * (X2 * C1) * A2ᵀ * (Y3 * J3)) -
          (1 + A2 * (X2 * C1) * A2ᵀ * (Y3 * J3)) *
          (A2 * (XR * C1) * A2ᵀ * (Y3 * J3)) := by rw [p1]
      _ = 1 + A2 * (X2 * C1) * (A2ᵀ * (Y3 * J3)) -
          A2 * (XR * C1) * (A2ᵀ * (Y3 * J3)) -
          A2 * (X2 * C1 * (A2ᵀ * (Y3 * J3) * A2) * (XR * C1)) *
          (A2ᵀ * (Y3 * J3)) := by noncomm_ring
      _ = 1 + A2 * (X2 * C1) * (A2ᵀ * (Y3 * J3)) -
          A2 * (XR * C1) * (A2ᵀ * (Y3 * J3)) -
          A2 * (X2 * C1 * (J23 - J2) * (XR * C1)) * (A2ᵀ * (Y3 * J3)) := by
          rw [hD]
      _ = 1 + A2 * (X2 * C1) * (A2ᵀ * (Y3 * J3)) -
          A2 * (XR * C1) * (A2ᵀ * (Y3 * J3)) -
          A2 * (X2 * C1 - XR * C1) * (A2ᵀ * (Y3 * J3)) := by rw [hK3r]
      _ = 1 := by noncomm_ring
  have K4 : XL * C12 = X3 * (A2 * (XR * C1) * A2ᵀ * Y3) + X3 * C2 := by
    rw [K2, hC12def]
    calc (X3 - X3 * (A2 * (XR * C1) * A2ᵀ * (Y3 * J3))) *
        (A2 * X2 * C1 * A2ᵀ + C2)
        = X3 * (A2 * (X2 * C1 - XR * C1 * (A2ᵀ * (Y3 * J3) * A2) *
            (X2 * C1)) * A2ᵀ) + X3 * C2 -
          X3 * (A2 * (XR * C1) * A2ᵀ * (Y3 * (J3 * C2))) := by noncomm_ring
      _ = X3 * (A2 * (X2 * C1 - XR * C1 * (J23 - J2) * (X2 * C1)) * A2ᵀ) +
          X3 * C2 - X3 * (A2 * (XR * C1) * A2ᵀ * (1 - Y3)) := by
          rw [hD, y3j3c2]
      _ = X3 * (A2 * (XR * C1) * A2ᵀ) + X3 * C2 -
          X3 * (A2 * (XR * C1) * A2ᵀ * (1 - Y3)) := by rw [K3l]
      _ = X3 * (A2 * (XR * C1) * A2ᵀ * Y3) + X3 * C2 := by noncomm_ring
  -- the transposed A-coefficient identity and the J/eta identities
  have K1d : Y2 * A2ᵀ * YL = YR * (A2ᵀ * Y3) := by
    have h := congrArg Matrix.transpose K1
    simp only [Matrix.transpose_mul] at h
    rw [tXL, tX2, tX3, tXR] at h
    exact h
  have K5 : Y2 * A2ᵀ * YL * (J3 * (A2 * X2)) + Y2 * J2 = YR * J23 := by
    calc Y2 * A2ᵀ * YL * (J3 * (A2 * X2)) + Y2 * J2
        = YR * (A2ᵀ * Y3) * (J3 * (A2 * X2)) + Y2 * J2 := by rw [K1d]
      _ = YR * ((A2ᵀ * Y3 * J3 * A2) * X2) + Y2 * J2 := by noncomm_ring
      _ = YR * ((J23 - J2) * X2) + Y2 * J2 := by rw [hDJ]
      _ = YR * ((J23 - J2) * X2) +
          (YR + YR * (J23 - J2) * (X2 * C1)) * J2 := by rw [← Yid]
      _ = YR * ((J23 - J2) * (X2 * (1 + C1 * J2))) + YR * J2 := by
          noncomm_ring
      _ = YR * ((J23 - J2) * 1) + YR * J2 := by rw [hX2l]
      _ = YR * J23 := by noncomm_ring
  have hsub : Y2 * A2ᵀ * YL * (J3 * (A2 * X2)) = YR * J23 - Y2 * J2 := by
    calc Y2 * A2ᵀ * YL * (J3 * (A2 * X2))
        = Y2 * A2ᵀ * YL * (J3 * (A2 * X2)) + Y2 * J2 - Y2 * J2 := by
          noncomm_ring
      _ = YR * J23 - Y2 * J2 := by rw [K5]
  have etac : Y2 - Y2 * A2ᵀ * YL * (J3 * (A2 * X2)) * C1 = YR := by
    calc Y2 - Y2 * A2ᵀ * YL * (J3 * (A2 * X2)) * C1
        = Y2 - (Y2 * A2ᵀ * YL * (J3 * (A2 * X2))) * C1 := by noncomm_ring
      _ = Y2 - (YR * J23 - Y2 * J2) * C1 := by rw [hsub]
      _ = Y2 * (1 + J2 * C1) - YR * (J23 * C1) := by noncomm_ring
      _ = 1 - YR * (J23 * C1) := by rw [hY2l]
      _ = 1 - (1 - YR) := by rw [v1]
      _ = YR := by noncomm_ring
  -- lifted coefficient identities for the vector parts
  have hb1 : (A3 * XL) * (A2 * X2) = A3 * X3 * A2 * XR := by
    calc (A3 * XL) * (A2 * X2) = A3 * (XL * (A2 * X2)) := by noncomm_ring
      _ = A3 * (X3 * A2 * XR) := by rw [K1]
      _ = A3 * X3 * A2 * XR := by noncomm_ring
  have hbe2 : (A3 * XL) * ((A2 * X2) * C1) = A3 * X3 * A2 * XR * C1 := by
    calc (A3 * XL) * ((A2 * X2) * C1)
        = A3 * (XL * (A2 * X2)) * C1 := by noncomm_ring
      _ = A3 * (X3 * A2 * XR) * C1 := by rw [K1]
      _ = A3 * X3 * A2 * XR * C1 := by noncomm_ring
  have hbb2 : A3 * XL =
      A3 * X3 - A3 * X3 * A2 * XR * (C1 * ((A2ᵀ * Y3) * J3)) := by
    calc A3 * XL
        = A3 * (X3 - X3 * (A2 * (XR * C1) * A2ᵀ * (Y3 * J3))) := by rw [K2]
      _ = A3 * X3 - A3 * X3 * A2 * XR * (C1 * ((A2ᵀ * Y3) * J3)) := by
          noncomm_ring
  have hbe3 : (A3 * XL) * C12 =
      A3 * X3 * A2 * XR * (C1 * (A2ᵀ * Y3)) + A3 * X3 * C2 := by
    calc (A3 * XL) * C12 = A3 * (XL * C12) := by noncomm_ring
      _ = A3 * (X3 * (A2 * (XR * C1) * A2ᵀ * Y3) + X3 * C2) := by rw [K4]
      _ = A3 * X3 * A2 * XR * (C1 * (A2ᵀ * Y3)) + A3 * X3 * C2 := by
          noncomm_ring
  have hce3 : (A1ᵀ * (Y2 * A2ᵀ)) * YL = (A1ᵀ * YR) * (A2ᵀ * Y3) := by
    calc (A1ᵀ * (Y2 * A2ᵀ)) * YL = A1ᵀ * (Y2 * A2ᵀ * YL) := by noncomm_ring
      _ = A1ᵀ * (YR * (A2ᵀ * Y3)) := by rw [K1d]
      _ = (A1ᵀ * YR) * (A2ᵀ * Y3) := by noncomm_ring
  have hcb2 : (A1ᵀ * (Y2 * A2ᵀ)) * YL * J3 =
      (A1ᵀ * YR) * ((A2ᵀ * Y3) * J3) := by
    calc (A1ᵀ * (Y2 * A2ᵀ)) * YL * J3
        = A1ᵀ * (Y2 * A2ᵀ * YL) * J3 := by noncomm_ring
      _ = A1ᵀ * (YR * (A2ᵀ * Y3)) * J3 := by rw [K1d]
      _ = (A1ᵀ * YR) * ((A2ᵀ * Y3) * J3) := by noncomm_ring
  have hce2 : (A1ᵀ * (Y2 * A2ᵀ)) * YL * (J3 * ((A2 * X2) * C1)) =
      A1ᵀ * Y2 - A1ᵀ * YR := by
    calc (A1ᵀ * (Y2 * A2ᵀ)) * YL * (J3 * ((A2 * X2) * C1))
        = A1ᵀ * Y2 -
          A1ᵀ * (Y2 - Y2 * A2ᵀ * YL * (J3 * (A2 * X2)) * C1) := by
          noncomm_ring
      _ = A1ᵀ * Y2 - A1ᵀ * YR := by rw [etac]
  have hcb1 : (A1ᵀ * (Y2 * A2ᵀ)) * YL * (J3 * (A2 * X2)) =
      (A1ᵀ * YR) * J23 - (A1ᵀ * Y2) * J2 := by
    calc (A1ᵀ * (Y2 * A2ᵀ)) * YL * (J3 * (A2 * X2))
        = A1ᵀ * (Y2 * A2ᵀ * YL * (J3 * (A2 * X2)) + Y2 * J2) -
          (A1ᵀ * Y2) * J2 := by noncomm_ring
      _ = A1ᵀ * (YR * J23) - (A1ᵀ * Y2) * J2 := by rw [K5]
      _ = (A1ᵀ * YR) * J23 - (A1ᵀ * Y2) * J2 := by noncomm_ring
  -- the five components
  simp only [FilterElem.mk.injEq]
  refine ⟨?_, ?_, ?_, ?_, ?_⟩
  · -- A component
    calc A3 * XL * (A2 * X2 * A1)
        = A3 * (XL * (A2 * X2)) * A1 := by noncomm_ring
      _ = A3 * (X3 * A2 * XR) * A1 := by rw [K1]
      _ = A3 * X3 * A2 * XR * A1 := by noncomm_ring
  · -- b component
    simp only [Matrix.mulVec_add, Matrix.mulVec_sub, Matrix.mulVec_mulVec]
    rw [hbe3, hbe2, hb1, hbb2]
    rw [Matrix.sub_mulVec, Matrix.add_mulVec]
    abel
  · -- C component
    rw [show (A3 * X3 * A2)ᵀ = A2ᵀ * (X3ᵀ * A3ᵀ) from by
      rw [Matrix.transpose_mul, Matrix.transpose_mul], tX3]
    have e : A3 * XL * C12 * A3ᵀ + C3 = A3 * (XL * C12) * A3ᵀ + C3 := by
      noncomm_ring
    rw [e, K4]
    noncomm_ring
  · -- J component
    rw [show (A2 * X2 * A1)ᵀ = A1ᵀ * (X2ᵀ * A2ᵀ) from by
      rw [Matrix.transpose_mul, Matrix.transpose_mul], tX2]
    have e : A1ᵀ * (Y2 * A2ᵀ) * YL * J3 * (A2 * X2 * A1) +
        (A1ᵀ * Y2 * J2 * A1 + J1) =
        A1ᵀ * (Y2 * A2ᵀ * YL * (J3 * (A2 * X2)) + Y2 * J2) * A1 + J1 := by
      noncomm_ring
    rw [e, K5]
    noncomm_ring
  · -- eta component
    rw [show (A2 * X2 * A1)ᵀ = A1ᵀ * (X2ᵀ * A2ᵀ) from by
      rw [Matrix.transpose_mul, Matrix.transpose_mul], tX2]
    simp only [Matrix.mulVec_add, Matrix.mulVec_sub, Matrix.mulVec_mulVec]
    rw [hce2, hcb1, hcb2, hce3]
    rw [Matrix.sub_mulVec, Matrix.sub_mulVec]
    abel

/-- Claim C3: each combine operator is associative in exact arithmetic —
the HMM marginalize operator (on messages with entrywise nonnegative A and
positive row sums, so that every normalisation it performs is defined), the
LGSSM filtering operator (on elements with symmetric covariance and
precision parts such that the linear systems solved by both association
orders are nonsingular), and the LGSSM smoothing operator
(unconditionally): combine(combine(m1,m2),m3) = combine(m1,combine(m2,m3)). -/
theorem C3_combine_operators_associative :
    (∀ (K : ℕ) [NeZero K] (m1 m2 m3 : HMMMessage K),
      (∀ i j, 0 ≤ m1.A i j) → (∀ i, 0 < ∑ j, m1.A i j) →
      (∀ i j, 0 ≤ m2.A i j) → (∀ i, 0 < ∑ j, m2.A i j) →
      (∀ i j, 0 ≤ m3.A i j) → (∀ i, 0 < ∑ j, m3.A i j) →
      marginalize (marginalize m1 m2) m3 =
        marginalize m1 (marginalize m2 m3)) ∧
    (∀ (F : Type) [Field F] (d : ℕ) (e1 e2 e3 : FilterElem F d),
      e1.Cᵀ = e1.C → e2.Cᵀ = e2.C → e2.Jᵀ = e2.J → e3.Jᵀ = e3.J →
      (1 + e1.C * e2.J).det ≠ 0 → (1 + e2.C * e3.J).det ≠ 0 →
      (1 + (filtering_operator e1 e2).C * e3.J).det ≠ 0 →
      (1 + e1.C * (filtering_operator e2 e3).J).det ≠ 0 →
      filtering_operator (filtering_operator e1 e2) e3 =
        filtering_operator e1 (filtering_operator e2 e3)) ∧
    (∀ (F : Type) [Field F] (d : ℕ) (s1 s2 s3 : SmoothElem F d),
      smoothing_operator (smoothing_operator s1 s2) s3 =
        smoothing_operator s1 (smoothing_operator s2 s3)) := by
  refine ⟨?_, ?_, ?_⟩
  · intro K _ m1 m2 m3 h1 h1r h2 h2r h3 h3r
    exact marginalize_assoc m1 m2 m3 h1 h1r h2 h2r h3 h3r
  · intro F _ d e1 e2 e3 hC1 hC2 hJ2 hJ3 hd2 hd3 hdL hdR
    exact filtering_operator_assoc e1 e2 e3 hC1 hC2 hJ2 hJ3 hd2 hd3 hdL hdR
  · intro F _ d s1 s2 s3
    exact smoothing_operator_assoc s1 s2 s3

/-- Witness for C3 at concrete inputs: the all-ones one-state HMM message,
the scalar filtering element (A,b,C,J,eta) = (1,0,1,1,0) over ℚ — where the
combine systems have determinants 2, 2, 5/2 and 5/2 — and the scalar
smoothing element (E,g,L) = (1,0,1). -/
theorem C3_combine_operators_associative_witness :
    marginalize (marginalize (⟨1, 0⟩ : HMMMessage 1) ⟨1, 0⟩) ⟨1, 0⟩ =
      marginalize (⟨1, 0⟩ : HMMMessage 1) (marginalize ⟨1, 0⟩ ⟨1, 0⟩) ∧
    filtering_operator
        (filtering_operator (⟨1, 0, 1, 1, 0⟩ : FilterElem ℚ 1)
          ⟨1, 0, 1, 1, 0⟩) ⟨1, 0, 1, 1, 0⟩ =
      filtering_operator (⟨1, 0, 1, 1, 0⟩ : FilterElem ℚ 1)
        (filtering_operator ⟨1, 0, 1, 1, 0⟩ ⟨1, 0, 1, 1, 0⟩) ∧
    smoothing_operator
        (smoothing_operator (⟨1, 0, 1⟩ : SmoothElem ℚ 1) ⟨1, 0, 1⟩)
        ⟨1, 0, 1⟩ =
      smoothing_operator (⟨1, 0, 1⟩ : SmoothElem ℚ 1)
        (smoothing_operator ⟨1, 0, 1⟩ ⟨1, 0, 1⟩) := by
  have hone : ∀ i j : Fin 1, (1 : Matrix (Fin 1) (Fin 1) ℝ) i j = 1 := by
    intro i j
    rw [Subsingleton.elim i j, Matrix.one_apply_eq]
  have hA : ∀ i j, 0 ≤ (⟨1, 0⟩ : HMMMessage 1).A i j := by
    intro i j
    show (0 : ℝ) ≤ (1 : Matrix (Fin 1) (Fin 1) ℝ) i j
    rw [hone i j]
    norm_num
  have hr : ∀ i, 0 < ∑ j, (⟨1, 0⟩ : HMMMessage 1).A i j := by
    intro i
    rw [Fin.sum_univ_one]
    show (0 : ℝ) < (1 : Matrix (Fin 1) (Fin 1) ℝ) i 0
    rw [hone i 0]
    norm_num
  have hsC : (⟨1, 0, 1, 1, 0⟩ : FilterElem ℚ 1).Cᵀ =
      (⟨1, 0, 1, 1, 0⟩ : FilterElem ℚ 1).C := Matrix.transpose_one
  have hsJ : (⟨1, 0, 1, 1, 0⟩ : FilterElem ℚ 1).Jᵀ =
      (⟨1, 0, 1, 1, 0⟩ : FilterElem ℚ 1).J := Matrix.transpose_one
  have hcinv : cinv ((1 : Matrix (Fin 1) (Fin 1) ℚ) + 1 * 1) =
      Matrix.of ![![(1 : ℚ) / 2]] := by
    rw [show ((1 : Matrix (Fin 1) (Fin 1) ℚ) + 1 * 1) =
        Matrix.of ![![(2 : ℚ)]] from by
      rw [Matrix.mul_one]
      ext i j
      rw [Subsingleton.elim i j, Matrix.add_apply, Matrix.one_apply_eq]
      rw [Subsingleton.elim j 0]
      norm_num]
    rw [cinv, Matrix.det_fin_one, Matrix.adjugate_fin_one]
    ext i j
    rw [Subsingleton.elim i j, Subsingleton.elim j 0]
    simp
  have hdet2 : ((1 : Matrix (Fin 1) (Fin 1) ℚ) +
      (⟨1, 0, 1, 1, 0⟩ : FilterElem ℚ 1).C *
        (⟨1, 0, 1, 1, 0⟩ : FilterElem ℚ 1).J).det ≠ 0 := by
    show ((1 : Matrix (Fin 1) (Fin 1) ℚ) + 1 * 1).det ≠ (0 : ℚ)
    rw [Matrix.mul_one, Matrix.det_fin_one, Matrix.add_apply,
      Matrix.one_apply_eq]
    norm_num
  have hC : (filtering_operator (⟨1, 0, 1, 1, 0⟩ : FilterElem ℚ 1)
      ⟨1, 0, 1, 1, 0⟩).C = Matrix.of ![![(3 : ℚ) / 2]] := by
    rw [filtering_operator_eq]
    show (1 : Matrix (Fin 1) (Fin 1) ℚ) *
      cinv ((1 : Matrix (Fin 1) (Fin 1) ℚ) + 1 * 1) * 1 *
      (1 : Matrix (Fin 1) (Fin 1) ℚ)ᵀ + 1 = Matrix.of ![![(3 : ℚ) / 2]]
    rw [hcinv, Matrix.transpose_one, Matrix.one_mul, Matrix.mul_one,
      Matrix.mul_one]
    ext i j
    rw [Subsingleton.elim i j, Matrix.add_apply, Matrix.one_apply_eq,
      Subsingleton.elim j 0]
    simp
    norm_num
  have hJ : (filtering_operator (⟨1, 0, 1, 1, 0⟩ : FilterElem ℚ 1)
      ⟨1, 0, 1, 1, 0⟩).J = Matrix.of ![![(3 : ℚ) / 2]] := by
    rw [filtering_operator_eq]
    show ((1 : Matrix (Fin 1) (Fin 1) ℚ)ᵀ *
      cinv ((1 : Matrix (Fin 1) (Fin 1) ℚ) + 1 * 1)) * 1 * 1 + 1 =
      Matrix.of ![![(3 : ℚ) / 2]]
    rw [hcinv, Matrix.transpose_one, Matrix.one_mul, Matrix.mul_one,
      Matrix.mul_one]
    ext i j
    rw [Subsingleton.elim i j, Matrix.add_apply, Matrix.one_apply_eq,
      Subsingleton.elim j 0]
    simp
    norm_num
  have hdetL : ((1 : Matrix (Fin 1) (Fin 1) ℚ) +
      (filtering_operator (⟨1, 0, 1, 1, 0⟩ : FilterElem ℚ 1)
        ⟨1, 0, 1, 1, 0⟩).C * (⟨1, 0, 1, 1, 0⟩ : FilterElem ℚ 1).J).det ≠
      0 := by
    rw [hC]
    show ((1 : Matrix (Fin 1) (Fin 1) ℚ) +
      Matrix.of ![![(3 : ℚ) / 2]] * 1).det ≠ (0 : ℚ)
    rw [Matrix.mul_one, Matrix.det_fin_one, Matrix.add_apply,
      Matrix.one_apply_eq]
    simp
    norm_num
  have hdetR : ((1 : Matrix (Fin 1) (Fin 1) ℚ) +
      (⟨1, 0, 1, 1, 0⟩ : FilterElem ℚ 1).C *
        (filtering_operator (⟨1, 0, 1, 1, 0⟩ : FilterElem ℚ 1)
          ⟨1, 0, 1, 1, 0⟩).J).det ≠ 0 := by
    rw [hJ]
    show ((1 : Matrix (Fin 1) (Fin 1) ℚ) +
      1 * Matrix.of ![![(3 : ℚ) / 2]]).det ≠ (0 : ℚ)
    rw [Matrix.one_mul, Matrix.det_fin_one, Matrix.add_apply,
      Matrix.one_apply_eq]
    simp
    norm_num
  exact ⟨C3_combine_operators_associative.1 1 ⟨1, 0⟩ ⟨1, 0⟩ ⟨1, 0⟩
      hA hr hA hr hA hr,
    C3_combine_operators_associative.2.1 ℚ 1 ⟨1, 0, 1, 1, 0⟩
      ⟨1, 0, 1, 1, 0⟩ ⟨1, 0, 1, 1, 0⟩ hsC hsC hsJ hsJ hdet2 hdet2
      hdetL hdetR,
    C3_combine_operators_associative.2.2 ℚ 1 ⟨1, 0, 1⟩ ⟨1, 0, 1⟩ ⟨1, 0, 1⟩⟩

end
